import Mathlib

/-
Shallow embedding of the typst flow layouter
(src/crates/typst/src/layout/flow.rs) and the parts of its data model it
depends on. Lengths (the Rust Abs type, an f64 that is finite or plus
infinity in this subsystem) are modelled as rationals extended with an
infinity marker. External collaborators (inline layout, block layout,
footnote-entry layout, the separator frame) are abstracted as oracle
functions supplied through an environment record. Helpers of the
repository that are declared outside the provided sources (Regions
methods, Abs.fits, Parity.matches, Fr.share, FixedAlignment.position)
are modelled from the specification and marked as such in their doc
comments.
-/

namespace Typst

/-- Length value: finite rational or positive infinity. Mirrors the Abs
values flowing through flow.rs, which are finite or plus infinity. -/
inductive Abs where
  | fin (val : ℚ)
  | inf
deriving DecidableEq, Repr

namespace Abs

/-- Addition; sums involving infinity saturate (spec section 3). -/
def add : Abs → Abs → Abs
  | fin a, fin b => fin (a + b)
  | _, _ => inf

instance : Add Abs := ⟨Abs.add⟩

/-- Subtraction. Infinity minus anything stays infinity. The case of a
finite value minus infinity does not arise in the layouter; it is mapped
to zero. -/
def sub : Abs → Abs → Abs
  | fin a, fin b => fin (a - b)
  | inf, _ => inf
  | fin _, inf => fin 0

instance : Sub Abs := ⟨Abs.sub⟩

/-- Scaling by a rational factor (used for ratios of lengths). Scaling
infinity stays infinite. -/
def scale (q : ℚ) : Abs → Abs
  | fin a => fin (q * a)
  | inf => inf

/-- Division of lengths, yielding a dimensionless value represented as a
length. A finite value divided by infinity is zero; the remaining
infinite corners do not arise in the layouter. -/
def div : Abs → Abs → Abs
  | fin a, fin b => fin (a / b)
  | fin _, inf => fin 0
  | inf, _ => inf

instance : Div Abs := ⟨Abs.div⟩

/-- Boolean order on lengths; infinity is greater than any finite value
(spec section 3). -/
def ble : Abs → Abs → Bool
  | fin a, fin b => decide (a ≤ b)
  | _, inf => true
  | inf, fin _ => false

/-- Strict boolean order on lengths. -/
def blt (a b : Abs) : Bool := !(ble b a)

/-- Modelled from the spec: Abs.fits is declared outside the provided
sources; per section 3, a length fits into an available budget when it
is at most the budget, with infinity above every finite value. -/
def fits (avail req : Abs) : Bool := ble req avail

/-- Pointwise maximum. -/
def max (a b : Abs) : Abs := if ble a b then b else a

/-- Pointwise minimum. -/
def min (a b : Abs) : Abs := if ble a b then a else b

/-- Whether the value is finite. -/
def isFinite : Abs → Bool
  | fin _ => true
  | inf => false

/-- The zero length. -/
def zero : Abs := fin 0

end Abs

/-- A pair of values, one per axis (the Axes type of the layout crate). -/
structure Axes (α : Type) where
  x : α
  y : α
deriving DecidableEq, Repr

namespace Axes

/-- Map both components. -/
def map (f : α → β) (a : Axes α) : Axes β := ⟨f a.x, f a.y⟩

/-- Select per axis between two values using a pair of booleans
(Axes::select in the layout crate). -/
def select (cond : Axes Bool) (t f : Axes α) : Axes α :=
  ⟨if cond.x then t.x else f.x, if cond.y then t.y else f.y⟩

end Axes

/-- A size: lengths per axis. -/
abbrev Size := Axes Abs

namespace Size

/-- The zero size. -/
def zero : Size := ⟨Abs.zero, Abs.zero⟩

/-- Pointwise minimum of sizes. -/
def min (a b : Size) : Size := ⟨Abs.min a.x b.x, Abs.min a.y b.y⟩

/-- Whether both components are zero. -/
def isZero (s : Size) : Bool := s.x == Abs.zero && s.y == Abs.zero

end Size

/-- A point (position inside a frame). -/
abbrev Point := Axes Abs

namespace Point

/-- The origin. -/
def zero : Point := ⟨Abs.zero, Abs.zero⟩

/-- Pointwise addition of points. -/
def add (a b : Point) : Point := ⟨a.x + b.x, a.y + b.y⟩

/-- A point with only a vertical component (Point::with_y). -/
def withY (v : Abs) : Point := ⟨Abs.zero, v⟩

/-- A point with only a horizontal component (Point::with_x). -/
def withX (v : Abs) : Point := ⟨v, Abs.zero⟩

end Point

/-- Resolved alignment along one axis. The Rust FixedAlignment has
variants Start, Center and End; End is spelled ending here because end
is reserved. -/
inductive FixedAlignment where
  | start
  | center
  | ending
deriving DecidableEq, Repr

namespace FixedAlignment

/-- Rank used for the ruler maximum (Start < Center < End). -/
def rank : FixedAlignment → Nat
  | start => 0
  | center => 1
  | ending => 2

/-- Maximum by rank, as used for the ruler in finish_region. -/
def maxAl (a b : FixedAlignment) : FixedAlignment :=
  if a.rank ≤ b.rank then b else a

/-- Modelled from the spec: FixedAlignment::position is declared outside
the provided sources; it positions content inside leftover space
(Start at zero, Center halfway, End at the far edge). -/
def position (a : FixedAlignment) (extent : Abs) : Abs :=
  match a with
  | start => Abs.zero
  | center => extent / Abs.fin 2
  | ending => extent

end FixedAlignment

/-- The Smart type: an automatic value or a custom one. -/
inductive Smart (α : Type) where
  | auto
  | custom (value : α)
deriving DecidableEq, Repr

/-- Whether a Smart value is auto. -/
def Smart.isAuto : Smart α → Bool
  | .auto => true
  | .custom _ => false

/-- Frame kind: hard frames keep their size even when empty, soft ones
may be trimmed (spec section 3). -/
inductive FrameKind where
  | hard
  | soft
deriving DecidableEq, Repr

/-- Text direction, used when stitching columns. -/
inductive Dir where
  | ltr
  | rtl
deriving DecidableEq, Repr

/-- Page parity request for parity padding. -/
inductive Parity where
  | even
  | odd
deriving DecidableEq, Repr

/-- Modelled from the spec: Parity::matches is declared outside the
provided sources; per section 4.5 a requested parity matches a page
count when the count has that parity. -/
def Parity.matches : Parity → Nat → Bool
  | .even, n => n % 2 == 0
  | .odd, n => n % 2 == 1

/-- An element reachable from a metadata tag. Only the aspects used by
the flow layouter are modelled: its location, whether it is a footnote
element, and whether it is a reference to another footnote. -/
structure Elem where
  location : Option Nat
  isFootnote : Bool
  isRef : Bool
deriving DecidableEq, Repr

/-- A metadata tag wrapping an element. -/
structure Tag where
  elem : Elem
deriving DecidableEq, Repr

/-- A length relative to some base: an absolute part plus a ratio of the
base (the Rel type of the layout crate). -/
structure Rel where
  rel : ℚ
  abs : Abs
deriving DecidableEq, Repr

/-- Resolve a relative length against a whole. -/
def Rel.relativeTo (r : Rel) (whole : Abs) : Abs :=
  r.abs + Abs.scale r.rel whole

mutual
/-- A laid-out frame: a size, a kind and positioned children. -/
inductive Frame where
  | mk (size : Size) (kind : FrameKind) (items : List (Point × FrameItem))

/-- An item inside a frame: a nested group frame, a link, a metadata
tag, or other content (text, shapes). -/
inductive FrameItem where
  | group (frame : Frame)
  | link
  | tag (t : Tag)
  | other
end

namespace Frame

/-- The size of a frame. -/
def size : Frame → Size
  | .mk s _ _ => s

/-- The kind of a frame. -/
def kind : Frame → FrameKind
  | .mk _ k _ => k

/-- The positioned children of a frame. -/
def items : Frame → List (Point × FrameItem)
  | .mk _ _ its => its

/-- The height of a frame. -/
def height (f : Frame) : Abs := f.size.y

/-- The width of a frame. -/
def width (f : Frame) : Abs := f.size.x

/-- Modelled from the spec: Frame::is_empty is declared outside the
provided sources; a frame is empty when it has no children. -/
def isEmpty (f : Frame) : Bool := f.items.isEmpty

/-- Replace the size of a frame. -/
def setSize (f : Frame) (s : Size) : Frame :=
  match f with
  | .mk _ k its => .mk s k its

/-- Translate the contents of a frame by an offset (shifts the position
of every direct child). -/
def translate (f : Frame) (d : Point) : Frame :=
  match f with
  | .mk s k its => .mk s k (its.map fun pi => (Point.add pi.1 d, pi.2))

/-- Push a subframe as a group child at a position. -/
def pushFrame (f : Frame) (pos : Point) (sub : Frame) : Frame :=
  match f with
  | .mk s k its => .mk s k (its ++ [(pos, FrameItem.group sub)])

/-- Append several positioned items at the end. -/
def pushMultiple (f : Frame) (add : List (Point × FrameItem)) : Frame :=
  match f with
  | .mk s k its => .mk s k (its ++ add)

/-- Insert several positioned items at the front. -/
def prependMultiple (f : Frame) (add : List (Point × FrameItem)) : Frame :=
  match f with
  | .mk s k its => .mk s k (add ++ its)

/-- A soft frame of the given size with no children. -/
def soft (s : Size) : Frame := .mk s .soft []

/-- A hard frame of the given size with no children. -/
def hard (s : Size) : Frame := .mk s .hard []

end Frame

mutual
/-- Collect all footnote elements referenced in a frame, walking nested
groups, skipping tags whose location is already present in the
accumulator (collect_footnotes in flow.rs). -/
def collectFootnotes (notes : List Elem) (frame : Frame) : List Elem :=
  match frame with
  | .mk _ _ items => collectItems notes items

/-- Collect footnotes from a list of positioned frame items. -/
def collectItems (notes : List Elem) : List (Point × FrameItem) → List Elem
  | [] => notes
  | (_, item) :: rest =>
    match item with
    | .group f => collectItems (collectFootnotes notes f) rest
    | .tag t =>
      if notes.any fun note => note.location == t.elem.location then
        collectItems notes rest
      else if t.elem.isFootnote then
        collectItems (notes ++ [t.elem]) rest
      else
        collectItems notes rest
    | _ => collectItems notes rest
end

/-- Modelled from the spec (section 3): an ordered stream of regions with
a current size, a backlog of next heights, an optional repeating last
height, the original vertical budget, expansion flags and a root flag. -/
structure Regions where
  size : Size
  full : Abs
  backlog : List Abs
  last : Option Abs
  expand : Axes Bool
  root : Bool
deriving DecidableEq, Repr

namespace Regions

/-- Modelled from the spec: advancing pops the backlog or switches to the
repeating last height; the popped height becomes the current size and
the new vertical budget. -/
def next (r : Regions) : Regions :=
  match r.backlog with
  | h :: t => { r with size := ⟨r.size.x, h⟩, full := h, backlog := t }
  | [] =>
    match r.last with
    | some h => { r with size := ⟨r.size.x, h⟩, full := h }
    | none => r

/-- Modelled from the spec: in_last is true iff the backlog is empty and
only the repeating last height remains. -/
def inLast (r : Regions) : Bool := r.backlog.isEmpty && r.last.isSome

/-- Modelled from the spec: iter yields the current size, then the
backlog heights, then repeats the last height forever; this returns the
n-th yielded size if any. -/
def iterNth (r : Regions) (n : Nat) : Option Size :=
  if n = 0 then some r.size
  else
    match r.backlog.get? (n - 1) with
    | some h => some ⟨r.size.x, h⟩
    | none => r.last.map fun h => ⟨r.size.x, h⟩

/-- Modelled from the spec: the base size used to resolve relative
lengths has the current width and the full vertical budget. -/
def base (r : Regions) : Size := ⟨r.size.x, r.full⟩

/-- Copy of the regions with the root flag replaced. -/
def withRoot (r : Regions) (b : Bool) : Regions := { r with root := b }

/-- Replace the current size. -/
def setSize (r : Regions) (s : Size) : Regions := { r with size := s }

/-- Replace the current height. -/
def setSizeY (r : Regions) (v : Abs) : Regions :=
  { r with size := ⟨r.size.x, v⟩ }

end Regions

/-- A prepared item in a flow layout (the FlowItem enum of flow.rs). -/
inductive FlowItem where
  | absolute (v : Abs) (weak : Bool)
  | fractional (f : ℚ)
  | frame (frame : Frame) (align : Axes FixedAlignment) (sticky : Bool) (movable : Bool)
  | placed (frame : Frame) (xAlign : FixedAlignment)
      (yAlign : Smart (Option FixedAlignment)) (delta : Axes Rel)
      (float : Bool) (clearance : Abs)
  | footnote (frame : Frame)

namespace FlowItem

/-- Whether this item is out-of-flow: a non-floating placed item, or a
zero-size frame whose children are only links and tags. -/
def isOutOfFlow : FlowItem → Bool
  | .placed _ _ _ _ false _ => true
  | .frame f _ _ _ =>
    f.size.isZero && f.items.all fun pi =>
      match pi.2 with
      | .link => true
      | .tag _ => true
      | _ => false
  | _ => false

/-- Whether the item is a laid-out block frame. -/
def isFrame : FlowItem → Bool
  | .frame _ _ _ _ => true
  | _ => false

/-- Whether the item is weak absolute spacing. -/
def isWeakAbsolute : FlowItem → Bool
  | .absolute _ true => true
  | _ => false

end FlowItem

/-- Footnote configuration cached by the layouter (clearance above the
separator and gap between entries; the separator content itself is
abstracted into the environment). -/
structure FootnoteConfig where
  clearance : Abs
  gap : Abs
deriving DecidableEq, Repr

/-- The mutable state of the flow layouter. -/
structure FlowState where
  root : Bool
  regions : Regions
  expand : Axes Bool
  initial : Size
  lastWasPar : Bool
  items : List FlowItem
  pendingTags : List Tag
  pendingFloats : List FlowItem
  hasFootnotes : Bool
  footnoteConfig : FootnoteConfig
  finished : List Frame

/-- Oracles for the external layout collaborators: laying out one
footnote entry into regions, and laying out the footnote separator into
a pod of a given base size and expansion. -/
structure Env where
  layoutEntry : Elem → Regions → List Frame
  separator : Size → Axes Bool → Frame

/-- Failure modes of the embedded layouter. outOfFuel marks exhaustion
of the recursion budget of the embedding; the two expansion errors are
the bail sites of finish_region; floatUnaligned models the unreachable
arm for floats without a resolved vertical alignment. -/
inductive LayoutError where
  | outOfFuel
  | cannotExpandWidth
  | cannotExpandHeight
  | floatUnaligned
deriving DecidableEq, Repr

/-- Modelled from the spec: a fractional item's share of the remaining
space is its fraction of the total, clamped at zero, and zero when the
remaining space is infinite. -/
def frShare (f total : ℚ) (remaining : Abs) : Abs :=
  match remaining with
  | .fin r => if total = 0 then Abs.zero else Abs.fin (Max.max ((f / total) * r) 0)
  | .inf => Abs.zero

/-- Drop all trailing weak absolute spacing items (the trim step of
finish_region). -/
def trimTrailingWeak (items : List FlowItem) : List FlowItem :=
  ((items.reverse.dropWhile FlowItem.isWeakAbsolute)).reverse

/-- Totals accumulated over the items of a region before placement. -/
structure Measure where
  fr : ℚ
  used : Size
  footnoteHeight : Abs
  floatTop : Abs
  floatBottom : Abs
  firstFootnote : Bool

/-- One step of the measuring loop of finish_region. -/
def measureStep (gap : Abs) (m : Measure) : FlowItem → Measure
  | .absolute v _ => { m with used := ⟨m.used.x, m.used.y + v⟩ }
  | .fractional v => { m with fr := m.fr + v }
  | .frame f _ _ _ =>
    { m with used := ⟨Abs.max m.used.x f.width, m.used.y + f.height⟩ }
  | .placed _ _ _ _ false _ => m
  | .placed f _ yAlign _ true _ =>
    match yAlign with
    | .custom (some .start) => { m with floatTop := m.floatTop + f.height }
    | .custom (some .ending) => { m with floatBottom := m.floatBottom + f.height }
    | _ => m
  | .footnote f =>
    { m with
      footnoteHeight :=
        m.footnoteHeight + f.height + (if m.firstFootnote then Abs.zero else gap),
      firstFootnote := false,
      used := ⟨Abs.max m.used.x f.width, m.used.y⟩ }

/-- The measuring loop of finish_region over all items. -/
def measureUsed (gap : Abs) (items : List FlowItem) : Measure :=
  items.foldl (measureStep gap)
    { fr := 0, used := Size.zero, footnoteHeight := Abs.zero,
      floatTop := Abs.zero, floatBottom := Abs.zero, firstFootnote := true }

/-- Cursors threaded through the placement loop of finish_region. -/
structure PlaceCtx where
  output : Frame
  ruler : FixedAlignment
  floatTopOffset : Abs
  offset : Abs
  floatBottomOffset : Abs
  footnoteOffset : Abs

/-- One step of the placement loop of finish_region: places a single
item into the output frame, updating the cursors. -/
def placeStep (gap : Abs) (initial : Size) (used : Size) (fr : ℚ)
    (footnoteHeight floatBottomHeight : Abs) (size : Size)
    (ctx : PlaceCtx) : FlowItem → Except LayoutError PlaceCtx
  | .absolute v _ => .ok { ctx with offset := ctx.offset + v }
  | .fractional v =>
    let remaining := initial.y - used.y
    .ok { ctx with offset := ctx.offset + frShare v fr remaining }
  | .frame f align _ _ =>
    let ruler := ctx.ruler.maxAl align.y
    let x := align.x.position (size.x - f.width)
    let y := ctx.offset + ruler.position (size.y - used.y)
    .ok { ctx with
      ruler := ruler,
      offset := ctx.offset + f.height,
      output := ctx.output.pushFrame ⟨x, y⟩ f }
  | .placed f xAlign yAlign delta float _ =>
    let x := xAlign.position (size.x - f.width)
    if float then
      match yAlign with
      | .custom (some .start) =>
        let y := ctx.floatTopOffset
        let pos := Point.add ⟨x, y⟩
          ⟨(delta.x).relativeTo size.x, (delta.y).relativeTo size.y⟩
        .ok { ctx with
          floatTopOffset := ctx.floatTopOffset + f.height,
          output := ctx.output.pushFrame pos f }
      | .custom (some .ending) =>
        let y := size.y - footnoteHeight - floatBottomHeight + ctx.floatBottomOffset
        let pos := Point.add ⟨x, y⟩
          ⟨(delta.x).relativeTo size.x, (delta.y).relativeTo size.y⟩
        .ok { ctx with
          floatBottomOffset := ctx.floatBottomOffset + f.height,
          output := ctx.output.pushFrame pos f }
      | _ => .error .floatUnaligned
    else
      let y :=
        match yAlign with
        | .custom (some al) => al.position (size.y - f.height)
        | _ => ctx.offset + ctx.ruler.position (size.y - used.y)
      let pos := Point.add ⟨x, y⟩
        ⟨(delta.x).relativeTo size.x, (delta.y).relativeTo size.y⟩
      .ok { ctx with output := ctx.output.pushFrame pos f }
  | .footnote f =>
    let y := size.y - footnoteHeight + ctx.footnoteOffset
    .ok { ctx with
      footnoteOffset := ctx.footnoteOffset + f.height + gap,
      output := ctx.output.pushFrame (Point.withY y) f }

/-- The placement loop of finish_region over all items. -/
def placeLoop (gap : Abs) (initial : Size) (used : Size) (fr : ℚ)
    (footnoteHeight floatBottomHeight : Abs) (size : Size) :
    PlaceCtx → List FlowItem → Except LayoutError PlaceCtx
  | ctx, [] => .ok ctx
  | ctx, item :: rest =>
    match placeStep gap initial used fr footnoteHeight floatBottomHeight size ctx item with
    | .error e => .error e
    | .ok ctx => placeLoop gap initial used fr footnoteHeight floatBottomHeight size ctx rest

/-- Rewriting lemma: binding a success in the Except monad applies the
continuation. -/
theorem bindOk (a : α) (f : α → Except ε β) :
    (Except.ok a >>= f) = f a := rfl

/-- Rewriting lemma: binding an error in the Except monad propagates
the error. -/
theorem bindError (e : ε) (f : α → Except ε β) :
    ((Except.error e : Except ε α) >>= f) = .error e := rfl

/-- Rewriting lemma: pure in the Except monad is ok. -/
theorem pureOk (a : α) : (pure a : Except ε α) = .ok a := rfl

/-- The measuring stage of finish_region: the totals over the trimmed
items of the state. -/
def commitMeasure (s : FlowState) : Measure :=
  measureUsed s.footnoteConfig.gap (trimTrailingWeak s.items)

/-- The used size of the region at commit: measured extents plus the
footnote band and both float bands. -/
def commitUsed (s : FlowState) : Size :=
  let m := commitMeasure s
  ⟨m.used.x, m.used.y + m.footnoteHeight + m.floatTop + m.floatBottom⟩

/-- The committed frame size: the expansion-selected extent clamped to
the initial size, with the full initial height forced when fractional
spacing or footnotes are present and the height is finite. -/
def commitSize (s : FlowState) : Size :=
  let size0 := Size.min (Axes.select s.expand s.initial (commitUsed s)) s.initial
  if (decide (0 < (commitMeasure s).fr) || s.hasFootnotes) && s.initial.y.isFinite
  then ⟨size0.x, s.initial.y⟩ else size0

/-- The placement stage of finish_region over the trimmed items. -/
def commitPlace (s : FlowState) : Except LayoutError PlaceCtx :=
  placeLoop s.footnoteConfig.gap s.initial (commitUsed s) (commitMeasure s).fr
    (commitMeasure s).footnoteHeight (commitMeasure s).floatBottom (commitSize s)
    { output := Frame.soft (commitSize s), ruler := FixedAlignment.start,
      floatTopOffset := Abs.zero, offset := (commitMeasure s).floatTop,
      floatBottomOffset := Abs.zero, footnoteOffset := Abs.zero }
    (trimTrailingWeak s.items)

/-- The final stage of finish_region: flush pending tags into a forced
frame, push the output, advance the regions and reset the per-region
state; pending floats are handed back for re-feeding. -/
def commitPack (s : FlowState) (force : Bool) (ctx : PlaceCtx) :
    FlowState × List FlowItem :=
  let outTags :=
    if force && !s.pendingTags.isEmpty then
      (ctx.output.pushMultiple
        (s.pendingTags.map fun t => (Point.withY ctx.offset, FrameItem.tag t)),
       ([] : List Tag))
    else
      (ctx.output, s.pendingTags)
  let r := s.regions.next
  ({ s with
    items := [], pendingTags := outTags.2, pendingFloats := [],
    finished := s.finished ++ [outTags.1],
    regions := r, initial := r.size, hasFootnotes := false }, s.pendingFloats)

/-- The recursion-free body of finish_region: the out-of-flow fast path,
the weak trim, the measuring, the size determination with its two bail
sites, and the placement of all items; returns the advanced state
together with the pending floats to re-feed (empty on the fast path,
which leaves pending floats in place). -/
def finishRegionCore (s : FlowState) (force : Bool) :
    Except LayoutError (FlowState × List FlowItem) :=
  if !force && !s.items.isEmpty && s.items.all FlowItem.isOutOfFlow then
    let r := s.regions.next
    .ok ({ s with
      finished := s.finished ++ [Frame.soft s.initial],
      regions := r,
      initial := r.size }, [])
  else if !s.regions.size.x.isFinite && s.expand.x then
    .error .cannotExpandWidth
  else if !s.regions.size.y.isFinite && s.expand.y then
    .error .cannotExpandHeight
  else
    match commitPlace s with
    | .error e => .error e
    | .ok ctx => .ok (commitPack s force ctx)

/-- Layout and save the footnote separator (layout_footnote_separator in
flow.rs); the separator frame itself is supplied by the environment. -/
def layoutFootnoteSeparator (env : Env) (s : FlowState) : FlowState :=
  let expandPod : Axes Bool := ⟨s.regions.expand.x, false⟩
  let f := env.separator s.regions.base expandPod
  let f := f.setSize ⟨f.size.x, f.size.y + s.footnoteConfig.clearance⟩
  let f := f.translate (Point.withY s.footnoteConfig.clearance)
  { s with
    hasFootnotes := true,
    regions := s.regions.setSizeY (s.regions.size.y - f.height),
    items := s.items ++ [FlowItem.footnote f] }

/-- Rotate a list right by n places: the last n elements move to the
front (slice::rotate_right). -/
def rotateRightList (l : List α) (n : Nat) : List α :=
  l.drop (l.length - n) ++ l.take (l.length - n)

mutual
/-- Layout a finished item into the flow (handle_item in flow.rs). The
first argument is the recursion budget of the embedding. -/
def handleItem : Nat → Env → FlowState → FlowItem → Except LayoutError FlowState
  | fuel, env, s, item =>
    match item with
    | .absolute v weak =>
      if weak && !(s.items.any FlowItem.isFrame) then
        .ok s
      else
        .ok { s with
          regions := s.regions.setSizeY (s.regions.size.y - v),
          items := s.items ++ [FlowItem.absolute v weak] }
    | .fractional f =>
      .ok { s with items := s.items ++ [FlowItem.fractional f] }
    | .frame f align sticky movable =>
      let height := f.height
      match fuel with
      | 0 => .error .outOfFuel
      | fu + 1 => do
        let s ← fitLoop fu env s height
        let inLast := s.regions.inLast
        let s := { s with regions := s.regions.setSizeY (s.regions.size.y - height) }
        if s.root && movable then do
          let notes := collectFootnotes [] f
          let s := { s with items := s.items ++ [FlowItem.frame f align sticky movable] }
          let (s, notes, fits) ←
            hfLoop fu env notes.length s.items.length s.regions.size
              s.hasFootnotes true inLast 0 s notes
          if fits then
            .ok s
          else do
            let popped := s.items.getLast?
            let s := { s with items := s.items.dropLast }
            let s ← finishRegion fu env s false
            let s := { s with
              items := s.items ++ popped.toList,
              regions := s.regions.setSizeY (s.regions.size.y - height) }
            let (s, _, _) ←
              hfLoop fu env notes.length s.items.length s.regions.size
                s.hasFootnotes true true 0 s notes
            .ok s
        else
          .ok { s with items := s.items ++ [FlowItem.frame f align sticky movable] }
    | .placed f xAlign yAlign delta float clearance =>
      if !float then
        .ok { s with
          items := s.items ++ [FlowItem.placed f xAlign yAlign delta float clearance] }
      else if !s.pendingFloats.isEmpty
          || (!Abs.fits s.regions.size.y (f.height + clearance)
              && !s.regions.inLast) then
        .ok { s with
          pendingFloats :=
            s.pendingFloats ++ [FlowItem.placed f xAlign yAlign delta float clearance] }
      else
        let yAlign :=
          if yAlign.isAuto then
            let frac :=
              (s.regions.size.y - (f.height + clearance) / Abs.fin 2) / s.regions.full
            let better :=
              if Abs.ble frac (Abs.fin (1/2)) then FixedAlignment.ending
              else FixedAlignment.start
            Smart.custom (some better)
          else yAlign
        let f := f.setSize ⟨f.size.x, f.size.y + clearance⟩
        let f :=
          if yAlign == Smart.custom (some FixedAlignment.ending)
          then f.translate (Point.withY clearance) else f
        let s := { s with regions := s.regions.setSizeY (s.regions.size.y - f.height) }
        if s.root then
          match fuel with
          | 0 => .error .outOfFuel
          | fu + 1 => do
            let notes := collectFootnotes [] f
            let s ← tryHandleFootnotes fu env s notes
            .ok { s with
              items := s.items ++ [FlowItem.placed f xAlign yAlign delta true clearance] }
        else
          .ok { s with
            items := s.items ++ [FlowItem.placed f xAlign yAlign delta true clearance] }
    | .footnote f =>
      .ok { s with items := s.items ++ [FlowItem.footnote f] }
termination_by structural fuel _ _ _ => fuel

/-- The loop of handle_item that commits regions until a block frame of
the given height fits or only the last region remains. -/
def fitLoop : Nat → Env → FlowState → Abs → Except LayoutError FlowState
  | 0, _, _, _ => .error .outOfFuel
  | fuel + 1, env, s, height =>
    if !Abs.fits s.regions.size.y height && !s.regions.inLast then do
      let s ← finishRegion fuel env s false
      fitLoop fuel env s height
    else
      .ok s
termination_by structural fuel _ _ _ => fuel

/-- Finish the frame for one region (finish_region in flow.rs). The
recursion-free part lives in finishRegionCore below; here the pending
floats returned by the core are fed back into the layouter. -/
def finishRegion : Nat → Env → FlowState → Bool → Except LayoutError FlowState
  | fuel, env, s, force =>
    match finishRegionCore s force with
    | .error e => .error e
    | .ok sf =>
      if sf.2.isEmpty then
        .ok sf.1
      else
        match fuel with
        | 0 => .error .outOfFuel
        | fu + 1 => foldItems fu env sf.1 sf.2
termination_by structural fuel _ _ _ => fuel

/-- Feed a list of queued items back into the layouter in order (the
pending-float replay loops of flow.rs). -/
def foldItems : Nat → Env → FlowState → List FlowItem → Except LayoutError FlowState
  | _, _, s, [] => .ok s
  | fuel, env, s, item :: rest =>
    match fuel with
    | 0 => .error .outOfFuel
    | fu + 1 => do
      let s ← handleItem fu env s item
      foldItems fu env s rest
termination_by structural fuel _ _ _ => fuel

/-- The note-processing loop of handle_footnotes. The four arguments
after the environment are the snapshots of the note count, item count,
region size and footnote flag taken at function entry, used on
rollback. -/
def hfLoop : Nat → Env → Nat → Nat → Size → Bool → Bool → Bool → Nat →
    FlowState → List Elem → Except LayoutError (FlowState × List Elem × Bool)
  | 0, _, _, _, _, _, _, _, _, _, _ => .error .outOfFuel
  | fuel + 1, env, prevNotesLen, prevItemsLen, prevSize, prevHasFootnotes,
    movable, force, k, s, notes =>
    match notes.get? k with
    | none => .ok (s, notes, true)
    | some note =>
      if note.isRef then
        hfLoop fuel env prevNotesLen prevItemsLen prevSize prevHasFootnotes
          movable force (k + 1) s notes
      else
        let s := if !s.hasFootnotes then layoutFootnoteSeparator env s else s
        let s := { s with
          regions := s.regions.setSizeY (s.regions.size.y - s.footnoteConfig.gap) }
        let frames := env.layoutEntry note (s.regions.withRoot false)
        if !force && (k == 0 || movable) && (frames.head?.any Frame.isEmpty) then
          .ok ({ s with
              items := s.items.take prevItemsLen,
              regions := s.regions.setSize prevSize,
              hasFootnotes := prevHasFootnotes },
            notes.take prevNotesLen, false)
        else do
          let prev := notes.length
          let sn ← entryFrames fuel env 0 s notes frames
          let k := k + 1
          let nested := sn.2.length - prev
          let notes :=
            if nested > 0
            then sn.2.take k ++ rotateRightList (sn.2.drop k) nested
            else sn.2
          hfLoop fuel env prevNotesLen prevItemsLen prevSize prevHasFootnotes
            movable force k sn.1 notes
termination_by structural fuel _ _ _ _ _ _ _ _ _ _ => fuel

/-- The entry-frames loop of handle_footnotes: pushes each frame of a
footnote entry, committing the region and re-laying the separator
between successive frames. -/
def entryFrames : Nat → Env → Nat → FlowState → List Elem → List Frame →
    Except LayoutError (FlowState × List Elem)
  | _, _, _, s, notes, [] => .ok (s, notes)
  | fuel, env, i, s, notes, f :: rest =>
    let notes := collectFootnotes notes f
    match fuel with
    | 0 => .error .outOfFuel
    | fu + 1 => do
      let s ←
        if i > 0 then do
          let s ← finishRegion fu env s false
          let s := layoutFootnoteSeparator env s
          pure { s with
            regions := s.regions.setSizeY (s.regions.size.y - s.footnoteConfig.gap) }
        else
          pure s
      let s := { s with
        regions := s.regions.setSizeY (s.regions.size.y - f.height),
        items := s.items ++ [FlowItem.footnote f] }
      entryFrames fu env (i + 1) s notes rest
termination_by structural fuel _ _ _ _ _ => fuel

/-- Process footnotes, retrying in the next region when they do not fit
(try_handle_footnotes in flow.rs). -/
def tryHandleFootnotes : Nat → Env → FlowState → List Elem →
    Except LayoutError FlowState
  | fuel, env, s, notes =>
    if s.root then
      match fuel with
      | 0 => .error .outOfFuel
      | fu + 1 => do
        let (s1, notes1, fits) ←
          hfLoop fu env notes.length s.items.length s.regions.size
            s.hasFootnotes false s.regions.inLast 0 s notes
        if fits then
          .ok s1
        else do
          let s2 ← finishRegion fu env s1 false
          let (s3, _, _) ←
            hfLoop fu env notes1.length s2.items.length s2.regions.size
              s2.hasFootnotes false true 0 s2 notes1
          .ok s3
    else
      .ok s
termination_by structural fuel _ _ _ => fuel
end

/-- Process all footnotes in a movable frame, with rollback when the
first entry does not fit (handle_footnotes in flow.rs); the snapshots of
note count, item count, region size and footnote flag are taken here at
entry. -/
def handleFootnotes (fuel : Nat) (env : Env) (s : FlowState) (notes : List Elem)
    (movable force : Bool) : Except LayoutError (FlowState × List Elem × Bool) :=
  hfLoop fuel env notes.length s.items.length s.regions.size s.hasFootnotes
    movable force 0 s notes

/-- The backwards scan of finish_region_with_migration over the
enumerated items in reverse: absolute spacing is skipped, a sticky frame
lowers the drain index to its position, anything else stops the scan. -/
def migrationScan : Nat → List (Nat × FlowItem) → Nat
  | sticky, [] => sticky
  | sticky, (i, item) :: rest =>
    match item with
    | .absolute _ _ => migrationScan sticky rest
    | .frame _ _ true _ => migrationScan i rest
    | _ => sticky

/-- The index from which items are drained by
finish_region_with_migration. -/
def migrationStickyIndex (items : List FlowItem) : Nat :=
  migrationScan items.length items.enum.reverse

/-- Finish the region, migrating the trailing sticky items into the next
one (finish_region_with_migration in flow.rs). Returns whether the
region entered by the commit is the last one, together with the new
state. -/
def finishRegionWithMigration (fuel : Nat) (env : Env) (s : FlowState) :
    Except LayoutError (Bool × FlowState) := do
  let sticky := migrationStickyIndex s.items
  let carry := s.items.drop sticky
  let s := { s with items := s.items.take sticky }
  let s ← finishRegion fuel env s false
  let inLast := s.regions.inLast
  let s ← foldItems fuel env s carry
  .ok (inLast, s)

/-- Height of the i-th line, or zero when out of range (the height_at
closure of handle_par). -/
def heightAt (lines : List Frame) (i : Nat) : Abs :=
  ((lines.get? i).map Frame.height).getD Abs.zero

/-- The required vertical budget before emitting line i of a paragraph
(the needed computation of handle_par). -/
def neededHeight (preventAll preventOrphans preventWidows : Bool)
    (front1 front2 back2 back1 leading frameHeight : Abs) (i len : Nat) : Abs :=
  if preventAll && i == 0 then front1 + leading + front2 + leading + back1
  else if preventOrphans && i == 0 then front1 + leading + front2
  else if preventWidows && decide (2 ≤ i) && i + 2 == len then back2 + leading + back1
  else frameHeight

/-- Attach pending metadata tags to a nonempty frame (drain_tag in
flow.rs). -/
def drainTag (s : FlowState) (f : Frame) : FlowState × Frame :=
  if !s.pendingTags.isEmpty && !f.isEmpty then
    ({ s with pendingTags := [] },
     f.prependMultiple (s.pendingTags.map fun t => (Point.zero, FrameItem.tag t)))
  else
    (s, f)

/-- The tail of the per-line loop body of handle_par, from the region
advance check onward: commit when the needed budget does not fit here
but fits the next region, then attach tags and emit the line frame. -/
def handleParLineCore (fuel : Nat) (env : Env) (s : FlowState) (needed : Abs)
    (f : Frame) (align : Axes FixedAlignment) : Except LayoutError FlowState := do
  let s ←
    if !s.regions.inLast && !Abs.fits s.regions.size.y needed
        && ((s.regions.iterNth 1).any fun sz => Abs.fits sz.y needed) then
      finishRegion fuel env s false
    else
      pure s
  let sf := drainTag s f
  handleItem fuel env sf.1 (FlowItem.frame sf.2 align false true)

/-- The per-line loop of handle_par: weak leading between lines, then
the budget check and emission for each line. -/
def parLines (fuel : Nat) (env : Env) (align : Axes FixedAlignment) (leading : Abs)
    (preventAll preventOrphans preventWidows : Bool)
    (front1 front2 back2 back1 : Abs) (len : Nat) :
    Nat → FlowState → List Frame → Except LayoutError FlowState
  | _, s, [] => .ok s
  | i, s, f :: rest => do
    let s ← if i > 0 then handleItem fuel env s (FlowItem.absolute leading true) else pure s
    let needed :=
      neededHeight preventAll preventOrphans preventWidows
        front1 front2 back2 back1 leading f.height i len
    let s ← handleParLineCore fuel env s needed f align
    parLines fuel env align leading preventAll preventOrphans preventWidows
      front1 front2 back2 back1 len (i + 1) s rest

/-- The first-line migration loop of handle_par: while the first line
does not fit and this is not the last region, commit with sticky
migration, stopping once the migration lands in the last region. -/
def parMigration : Nat → Env → FlowState → Abs → Except LayoutError FlowState
  | 0, _, _, _ => .error .outOfFuel
  | fuel + 1, env, s, h =>
    if !Abs.fits s.regions.size.y h && !s.regions.inLast then do
      let r ← finishRegionWithMigration fuel env s
      if r.1 then .ok r.2 else parMigration fuel env r.2 h
    else
      .ok s
termination_by structural fuel _ _ _ => fuel

/-- Layout a paragraph given its laid-out line frames (handle_par in
flow.rs; the inline layout of the paragraph into lines is the oracle
input). -/
def handlePar (fuel : Nat) (env : Env) (s : FlowState) (lines : List Frame)
    (align : Axes FixedAlignment) (leading : Abs) (costOrphan costWidow : ℚ) :
    Except LayoutError FlowState := do
  let s ←
    match lines.head? with
    | some first => parMigration fuel env s first.height
    | none => pure s
  let len := lines.length
  let preventOrphans :=
    decide (0 < costOrphan) && decide (2 ≤ len)
      && !((lines.getD 1 (Frame.soft Size.zero)).isEmpty)
  let preventWidows :=
    decide (0 < costWidow) && decide (2 ≤ len)
      && !((lines.getD (len - 2) (Frame.soft Size.zero)).isEmpty)
  let preventAll := len == 3 && preventOrphans && preventWidows
  let front1 := heightAt lines 0
  let front2 := heightAt lines 1
  let back2 := heightAt lines (len - 2)
  let back1 := heightAt lines (len - 1)
  let s ←
    parLines fuel env align leading preventAll preventOrphans preventWidows
      front1 front2 back2 back1 len 0 s lines
  .ok { s with lastWasPar := true }

/-- The parity-padding step of finalize_page_run: append one hard blank
frame when a parity is requested and the physical counter plus the
produced frame count has the wrong parity; the blank keeps the content
area on finite axes and is zero on infinite ones. -/
def parityPadFrames (extendTo : Option Parity) (physical : Nat) (area : Size)
    (frames : List Frame) : List Frame :=
  if extendTo.any fun p => !(p.matches (physical + frames.length)) then
    frames ++ [Frame.hard (Axes.select (area.map Abs.isFinite) area Size.zero)]
  else
    frames

/-- The pod regions constructed by layout_fragment_with_columns: the
width is split between the columns minus gutters, and the vertical
backlog repeats each original height once per column, skipping the
first entry. -/
def columnPod (regions : Regions) (count : Nat) (gutter : Rel) : Regions :=
  let g := gutter.relativeTo regions.base.x
  let width :=
    (regions.size.x - Abs.scale ((count : ℚ) - 1) g) / Abs.fin (count : ℚ)
  let backlog :=
    ((regions.size.y :: regions.backlog).flatMap fun h => List.replicate count h).drop 1
  { size := ⟨width, regions.size.y⟩,
    full := regions.full,
    backlog := backlog,
    last := regions.last,
    expand := ⟨true, regions.expand.y⟩,
    root := regions.root }

/-- The inner loop of the column stitcher: place up to count frames side
by side into the output frame, honoring text direction. -/
def stitchRow (dir : Dir) (totalWidth : Abs) (gutter : Abs) (expandY : Bool) :
    Nat → Abs → Frame → List Frame → Frame × List Frame
  | 0, _, output, frames => (output, frames)
  | _ + 1, _, output, [] => (output, [])
  | n + 1, cursor, output, f :: frames =>
    let output :=
      if !expandY
      then output.setSize ⟨output.size.x, Abs.max output.size.y f.height⟩
      else output
    let w := f.width
    let x := if dir == Dir.ltr then cursor else totalWidth - cursor - w
    stitchRow dir totalWidth gutter expandY n (cursor + w + gutter)
      (output.pushFrame (Point.withX x) f) frames

/-- The sizes yielded by iterating the first n regions of a stream. -/
def regionsTake (regions : Regions) (n : Nat) : List Size :=
  (List.range n).filterMap regions.iterNth

/-- The outer loop of the column stitcher: one output frame per consumed
region, each collecting count column frames. -/
def stitchColumns (dir : Dir) (regions : Regions) (count : Nat) (gutter : Abs)
    : List Size → List Frame → List Frame
  | [], _ => []
  | region :: rest, frames =>
    let height := if regions.expand.y then region.y else Abs.zero
    let row :=
      stitchRow dir regions.size.x gutter regions.expand.y count Abs.zero
        (Frame.hard ⟨regions.size.x, height⟩) frames
    row.1 :: stitchColumns dir regions count gutter rest row.2

/-- Layout into regions with columns (layout_fragment_with_columns in
flow.rs); the plain fragment layout is the oracle input. When the
incoming width is infinite column splitting is bypassed. -/
def layoutFragmentWithColumns (oracle : Regions → List Frame)
    (regions : Regions) (count : Nat) (gutter : Rel) (dir : Dir) : List Frame :=
  if !regions.size.x.isFinite then
    oracle regions
  else
    let g := gutter.relativeTo regions.base.x
    let pod := columnPod regions count gutter
    let frames := oracle pod
    let total := (frames.length + count - 1) / count
    stitchColumns dir regions count g (regionsTake regions total) frames

/-
Concrete fixtures used by witnesses and counterexamples.
-/

/-- An environment whose oracles return empty layouts. -/
def envNull : Env :=
  { layoutEntry := fun _ _ => [], separator := fun _ _ => Frame.soft Size.zero }

/-- A finite 100 by 100 region stream repeating forever. -/
def regionsA : Regions :=
  { size := ⟨Abs.fin 100, Abs.fin 100⟩, full := Abs.fin 100, backlog := [],
    last := some (Abs.fin 100), expand := ⟨false, false⟩, root := false }

/-- A footnote configuration with unit clearance and gap. -/
def cfgA : FootnoteConfig := { clearance := Abs.fin 1, gap := Abs.fin 1 }

/-- A fresh non-root layouter state over regionsA. -/
def stateA : FlowState :=
  { root := false, regions := regionsA, expand := ⟨false, false⟩,
    initial := ⟨Abs.fin 100, Abs.fin 100⟩, lastWasPar := false, items := [],
    pendingTags := [], pendingFloats := [], hasFootnotes := false,
    footnoteConfig := cfgA, finished := [] }

/-
Supporting lemmas.
-/

/-- Trailing weak spacing added after any items is removed by the trim
step, so trimming sees only the base items. -/
theorem trimTrailingWeak_append_weak (base extra : List FlowItem)
    (h : ∀ it ∈ extra, it.isWeakAbsolute = true) :
    trimTrailingWeak (base ++ extra) = trimTrailingWeak base := by
  unfold trimTrailingWeak
  rw [List.reverse_append]
  rw [List.dropWhile_append]
  have hnil : extra.reverse.dropWhile FlowItem.isWeakAbsolute = [] := by
    rw [List.dropWhile_eq_nil_iff]
    intro x hx
    exact h x (List.mem_reverse.mp hx)
  simp [hnil]

/-- Two item lists with the same trim commit identically (once neither
takes the out-of-flow fast path): everything after the trim step only
sees the trimmed items. -/
theorem finishRegionCore_items_congr (s : FlowState) (i1 i2 : List FlowItem)
    (force : Bool)
    (htrim : trimTrailingWeak i1 = trimTrailingWeak i2)
    (hfast1 : (!force && !i1.isEmpty && i1.all FlowItem.isOutOfFlow) = false)
    (hfast2 : (!force && !i2.isEmpty && i2.all FlowItem.isOutOfFlow) = false) :
    finishRegionCore { s with items := i1 } force =
      finishRegionCore { s with items := i2 } force := by
  have hp : commitPlace { s with items := i1 } = commitPlace { s with items := i2 } := by
    simp [commitPlace, commitUsed, commitSize, commitMeasure, htrim]
  have hk : ∀ ctx, commitPack { s with items := i1 } force ctx =
      commitPack { s with items := i2 } force ctx := by
    intro ctx
    simp [commitPack]
  unfold finishRegionCore
  simp [hfast1, hfast2, hp, hk]

/-
C4. Weak absolute spacing in handle_item and trailing-weak trimming in
finish_region.
-/

/-- C4: a weak absolute spacer handed to handle_item is discarded with
the remaining height unchanged when no frame item is present in the
current region; otherwise it consumes its amount from the remaining
height; and at commit, trailing weak absolute items are removed before
the used size is measured, so committing with them present equals
committing without them (stated past the out-of-flow fast path). -/
theorem c4_weak_spacing (fuel : Nat) (env : Env) (s : FlowState) (v : Abs) :
    (s.items.any FlowItem.isFrame = false →
      handleItem fuel env s (FlowItem.absolute v true) = .ok s)
    ∧ (s.items.any FlowItem.isFrame = true →
      handleItem fuel env s (FlowItem.absolute v true) =
        .ok { s with
          regions := s.regions.setSizeY (s.regions.size.y - v),
          items := s.items ++ [FlowItem.absolute v true] })
    ∧ (∀ (base extra : List FlowItem) (force : Bool),
      (∀ it ∈ extra, it.isWeakAbsolute = true) →
      (force = true ∨ ∃ it ∈ base, it.isOutOfFlow = false) →
      finishRegion fuel env { s with items := base ++ extra } force =
        finishRegion fuel env { s with items := base } force) := by
  refine ⟨?_, ?_, ?_⟩
  · intro h
    simp [handleItem, h]
  · intro h
    simp [handleItem, h]
  · intro base extra force hextra hcase
    have htrim := trimTrailingWeak_append_weak base extra hextra
    have hcore : finishRegionCore { s with items := base ++ extra } force =
        finishRegionCore { s with items := base } force := by
      rcases hcase with hforce | ⟨it, hmem, hoof⟩
      · subst hforce
        exact finishRegionCore_items_congr s (base ++ extra) base true htrim
          (by simp) (by simp)
      · have hfall : base.all FlowItem.isOutOfFlow = false := by
          rw [List.all_eq_false]
          exact ⟨it, hmem, by simp [hoof]⟩
        have hfall2 : (base ++ extra).all FlowItem.isOutOfFlow = false := by
          rw [List.all_eq_false]
          exact ⟨it, by simp [hmem], by simp [hoof]⟩
        exact finishRegionCore_items_congr s (base ++ extra) base force htrim
          (by simp [hfall2]) (by simp [hfall])
    simp only [finishRegion]
    rw [hcore]

/-- Witness for C4 at concrete inputs. -/
theorem c4_weak_spacing_witness :
    handleItem 0 envNull stateA (FlowItem.absolute (Abs.fin 3) true) = .ok stateA := by
  exact (c4_weak_spacing 0 envNull stateA (Abs.fin 3)).1 (by decide)

/-
C5. The out-of-flow fast path of finish_region.
-/

/-- A non-floating placed item, which is out-of-flow. -/
def placedOOF : FlowItem :=
  FlowItem.placed (Frame.soft Size.zero) FixedAlignment.start
    (Smart.custom (some FixedAlignment.start))
    ⟨⟨0, Abs.zero⟩, ⟨0, Abs.zero⟩⟩ false Abs.zero

/-- The fresh state with a single out-of-flow item. -/
def stateC5 : FlowState := { stateA with items := [placedOOF] }

/-- C5 counterexample: the claim as stated, which includes the case of
no items at all, fails: on an empty item list with no expansion the
committed frame is a zero-size soft frame, not one of the initial
region size. -/
theorem c5_counterexample :
    ¬ (∀ (fuel : Nat) (env : Env) (s s' : FlowState),
        s.items.all FlowItem.isOutOfFlow = true →
        finishRegion fuel env s false = .ok s' →
        s' = { s with
          finished := s.finished ++ [Frame.soft s.initial],
          regions := s.regions.next, initial := s.regions.next.size }) := by
  intro h
  have hobs : (finishRegion 1 envNull stateA false).toOption.map
      (fun t => t.finished.map Frame.size) = some [⟨Abs.fin 0, Abs.fin 0⟩] := by
    with_unfolding_all rfl
  cases hrun : finishRegion 1 envNull stateA false with
  | error e =>
    rw [hrun] at hobs
    simp [Except.toOption] at hobs
  | ok s1 =>
    rw [hrun] at hobs
    simp only [Except.toOption, Option.map_some'] at hobs
    have heq := h 1 envNull stateA s1 (by decide) hrun
    rw [heq] at hobs
    simp [stateA, Frame.soft, Frame.size] at hobs

/-- C5 amended: for every call to finish_region with force false, at
least one item, and every item out-of-flow, the committed frame is a
soft frame of exactly the initial region size, the regions advance by
one, and no item placement occurs (the state is otherwise unchanged,
the items staying in place). -/
theorem c5_fast_path (fuel : Nat) (env : Env) (s : FlowState)
    (hne : s.items.isEmpty = false)
    (hall : s.items.all FlowItem.isOutOfFlow = true) :
    finishRegion fuel env s false =
      .ok { s with
        finished := s.finished ++ [Frame.soft s.initial],
        regions := s.regions.next, initial := s.regions.next.size } := by
  simp [finishRegion, finishRegionCore, hne, hall]

/-- Witness for C5 at concrete inputs. -/
theorem c5_fast_path_witness :
    finishRegion 0 envNull stateC5 false =
      .ok { stateC5 with
        finished := stateC5.finished ++ [Frame.soft stateC5.initial],
        regions := stateC5.regions.next, initial := stateC5.regions.next.size } :=
  c5_fast_path 0 envNull stateC5 (by decide) (by decide)

/-
C7. Parity padding of finalize_page_run.
-/

/-- C7: exactly one hard blank frame is appended iff a parity is
requested and the parity of the physical counter plus the produced
frame count does not match it; the blank has the content area on finite
axes and zero on infinite axes. -/
theorem c7_parity_padding (extendTo : Option Parity) (physical : Nat) (area : Size)
    (frames : List Frame) :
    (extendTo = none → parityPadFrames extendTo physical area frames = frames)
    ∧ (∀ p, extendTo = some p →
      (p.matches (physical + frames.length) = true →
        parityPadFrames extendTo physical area frames = frames)
      ∧ (p.matches (physical + frames.length) = false →
        ∃ blank,
          parityPadFrames extendTo physical area frames = frames ++ [blank]
          ∧ blank.kind = FrameKind.hard
          ∧ blank.items = []
          ∧ blank.size.x = (if area.x.isFinite then area.x else Abs.zero)
          ∧ blank.size.y = (if area.y.isFinite then area.y else Abs.zero)))
    ∧ (Parity.even.matches (physical + frames.length) = true
        ↔ (physical + frames.length) % 2 = 0)
    ∧ (Parity.odd.matches (physical + frames.length) = true
        ↔ (physical + frames.length) % 2 = 1) := by
  refine ⟨?_, ?_, ?_, ?_⟩
  · intro h
    subst h
    simp [parityPadFrames, Option.any]
  · intro p hp
    subst hp
    constructor
    · intro hm
      simp [parityPadFrames, Option.any, hm]
    · intro hm
      refine ⟨Frame.hard (Axes.select (area.map Abs.isFinite) area Size.zero),
        by simp [parityPadFrames, Option.any, hm], rfl, rfl, ?_, ?_⟩
      · cases hfx : area.x.isFinite <;>
          simp [Frame.hard, Frame.size, Axes.select, Axes.map, Size.zero, hfx]
      · cases hfy : area.y.isFinite <;>
          simp [Frame.hard, Frame.size, Axes.select, Axes.map, Size.zero, hfy]
  · simp [Parity.matches]
  · simp [Parity.matches]

/-- Witness for C7 at concrete inputs: one hard blank of width 10 and
height zero is appended to the empty run. -/
theorem c7_parity_padding_witness :
    (parityPadFrames (some Parity.even) 1 ⟨Abs.fin 10, Abs.inf⟩ []).length = 1
    ∧ ((parityPadFrames (some Parity.even) 1 ⟨Abs.fin 10, Abs.inf⟩ []).headD
        (Frame.soft Size.zero)).kind = FrameKind.hard
    ∧ ((parityPadFrames (some Parity.even) 1 ⟨Abs.fin 10, Abs.inf⟩ []).headD
        (Frame.soft Size.zero)).size.x = Abs.fin 10
    ∧ ((parityPadFrames (some Parity.even) 1 ⟨Abs.fin 10, Abs.inf⟩ []).headD
        (Frame.soft Size.zero)).size.y = Abs.zero := by
  obtain ⟨blank, h1, h2, _, h4, h5⟩ :=
    ((c7_parity_padding (some Parity.even) 1 ⟨Abs.fin 10, Abs.inf⟩ []).2.1
      Parity.even rfl).2 (by decide)
  rw [List.nil_append] at h1
  rw [h1]
  refine ⟨rfl, h2, ?_, ?_⟩
  · simpa [Abs.isFinite] using h4
  · simpa [Abs.isFinite] using h5

/-
C9. The infinite-expansion bail sites of finish_region.
-/

/-- The only error a single placement step can produce is the
unreachable arm for floats without a resolved vertical alignment. -/
theorem placeStep_error (gap : Abs) (initial used : Size) (fr : ℚ)
    (fh fb : Abs) (size : Size) (ctx : PlaceCtx) (item : FlowItem) (e : LayoutError)
    (h : placeStep gap initial used fr fh fb size ctx item = .error e) :
    e = .floatUnaligned := by
  cases item with
  | absolute v weak => simp [placeStep] at h
  | fractional v => simp [placeStep] at h
  | frame f align sticky movable => simp [placeStep] at h
  | placed f xa ya delta float clearance =>
    cases float with
    | false => simp [placeStep] at h
    | true =>
      cases ya with
      | auto => simp_all [placeStep]
      | custom v =>
        cases v with
        | none => simp_all [placeStep]
        | some al => cases al <;> simp_all [placeStep]
  | footnote f => simp [placeStep] at h

/-- The only error the placement loop can produce is floatUnaligned. -/
theorem placeLoop_error (gap : Abs) (initial used : Size) (fr : ℚ)
    (fh fb : Abs) (size : Size) :
    ∀ (items : List FlowItem) (ctx : PlaceCtx) (e : LayoutError),
    placeLoop gap initial used fr fh fb size ctx items = .error e →
    e = .floatUnaligned := by
  intro items
  induction items with
  | nil => intro ctx e h; simp [placeLoop] at h
  | cons item rest ih =>
    intro ctx e h
    rw [placeLoop] at h
    cases hs : placeStep gap initial used fr fh fb size ctx item with
    | error e1 =>
      rw [hs] at h
      injection h with h1
      exact h1 ▸ placeStep_error gap initial used fr fh fb size ctx item e1 hs
    | ok ctx1 =>
      rw [hs] at h
      exact ih ctx1 e h

/-- The only error the commit placement stage can produce is
floatUnaligned. -/
theorem commitPlace_error (s : FlowState) (e : LayoutError)
    (h : commitPlace s = .error e) : e = .floatUnaligned := by
  unfold commitPlace at h
  exact placeLoop_error _ _ _ _ _ _ _ _ _ _ h

/-- Past the fast path and the bail checks, the core of finish_region
produces either a success or the floatUnaligned error. -/
theorem finishRegionCore_not_expand_err (s : FlowState) (force : Bool)
    (hcx : (!s.regions.size.x.isFinite && s.expand.x) = false)
    (hcy : (!s.regions.size.y.isFinite && s.expand.y) = false) :
    ∀ e, finishRegionCore s force = .error e → e = .floatUnaligned := by
  intro e h
  unfold finishRegionCore at h
  by_cases hfast : (!force && !s.items.isEmpty && s.items.all FlowItem.isOutOfFlow) = true
  · simp [hfast] at h
  · rw [Bool.not_eq_true] at hfast
    rw [if_neg (by simp [hfast])] at h
    rw [if_neg (by simp [hcx])] at h
    rw [if_neg (by simp [hcy])] at h
    cases hp : commitPlace s with
    | error e1 =>
      rw [hp] at h
      injection h with h1
      subst h1
      exact commitPlace_error s e1 hp
    | ok ctx =>
      rw [hp] at h
      cases h

/-- When no floats are pending, the core never asks for a re-feed. -/
theorem finishRegionCore_no_floats (s : FlowState) (force : Bool)
    (hpf : s.pendingFloats = []) :
    ∀ sf, finishRegionCore s force = .ok sf → sf.2 = [] := by
  intro sf h
  unfold finishRegionCore at h
  by_cases hfast : (!force && !s.items.isEmpty && s.items.all FlowItem.isOutOfFlow) = true
  · rw [if_pos hfast] at h
    injection h with h1
    rw [← h1]
  · rw [Bool.not_eq_true] at hfast
    rw [if_neg (by simp [hfast])] at h
    by_cases hcx : (!s.regions.size.x.isFinite && s.expand.x) = true
    · rw [if_pos hcx] at h
      cases h
    · rw [if_neg hcx] at h
      by_cases hcy : (!s.regions.size.y.isFinite && s.expand.y) = true
      · rw [if_pos hcy] at h
        cases h
      · rw [if_neg hcy] at h
        cases hp : commitPlace s with
        | error e1 =>
          rw [hp] at h
          cases h
        | ok ctx =>
          rw [hp] at h
          injection h with h1
          rw [← h1]
          simp [commitPack, hpf]

/-- C9: whenever finish_region reaches the sizing step (force set, or
the items not all out-of-flow, or no items), it errors on an expansion
request along an infinite axis, width checked first; and when neither
axis is both expanding and infinite, neither of these two errors can be
produced (stated with no pending floats, so that the call does not
recurse into later regions). -/
theorem c9_expand_errors (fuel : Nat) (env : Env) (s : FlowState) (force : Bool)
    (hpath : force = true ∨ s.items.isEmpty = true
      ∨ s.items.all FlowItem.isOutOfFlow = false) :
    (s.expand.x = true → s.regions.size.x.isFinite = false →
      finishRegion fuel env s force = .error .cannotExpandWidth)
    ∧ (¬(s.expand.x = true ∧ s.regions.size.x.isFinite = false) →
        s.expand.y = true → s.regions.size.y.isFinite = false →
      finishRegion fuel env s force = .error .cannotExpandHeight)
    ∧ (s.pendingFloats = [] →
       ¬(s.expand.x = true ∧ s.regions.size.x.isFinite = false) →
       ¬(s.expand.y = true ∧ s.regions.size.y.isFinite = false) →
      finishRegion fuel env s force ≠ .error .cannotExpandWidth
      ∧ finishRegion fuel env s force ≠ .error .cannotExpandHeight) := by
  have hcond : (!force && !s.items.isEmpty && s.items.all FlowItem.isOutOfFlow) = false := by
    rcases hpath with h | h | h <;> simp [h]
  refine ⟨?_, ?_, ?_⟩
  · intro hx hfx
    have hcore : finishRegionCore s force = .error .cannotExpandWidth := by
      unfold finishRegionCore
      simp [hcond, hx, hfx]
    simp [finishRegion, hcore]
  · intro hnx hy hfy
    have hcx : (!s.regions.size.x.isFinite && s.expand.x) = false := by
      revert hnx
      cases s.expand.x <;> cases hfx : s.regions.size.x.isFinite <;> simp
    have hcore : finishRegionCore s force = .error .cannotExpandHeight := by
      unfold finishRegionCore
      simp [hcond, hcx, hy, hfy]
    simp [finishRegion, hcore]
  · intro hpf hnx hny
    have hcx : (!s.regions.size.x.isFinite && s.expand.x) = false := by
      revert hnx
      cases s.expand.x <;> cases hfx : s.regions.size.x.isFinite <;> simp
    have hcy : (!s.regions.size.y.isFinite && s.expand.y) = false := by
      revert hny
      cases s.expand.y <;> cases hfy : s.regions.size.y.isFinite <;> simp
    simp only [finishRegion]
    cases hc : finishRegionCore s force with
    | error e =>
      have he := finishRegionCore_not_expand_err s force hcx hcy e hc
      subst he
      exact ⟨by simp, by simp⟩
    | ok sf =>
      have hf := finishRegionCore_no_floats s force hpf sf hc
      simp [hf]

/-
C2. The rollback of handle_footnotes.
-/



/-- C2: when the first note is a real footnote (so we are not past the
first footnote), force is false, and its first entry frame comes back
empty from the layout oracle, handle_footnotes returns false and the
state is exactly what it was before the call: the separator item is
truncated away, the region size and footnote flag are restored, and the
notes are unchanged. -/
theorem c2_footnote_rollback (fuel : Nat) (env : Env) (s : FlowState)
    (n : Elem) (rest : List Elem) (movable : Bool)
    (href : n.isRef = false)
    (hempty :
      ((env.layoutEntry n
        (((if !s.hasFootnotes then layoutFootnoteSeparator env s else s).regions.setSizeY
            ((if !s.hasFootnotes then layoutFootnoteSeparator env s else s).regions.size.y
              - (if !s.hasFootnotes then layoutFootnoteSeparator env s
                  else s).footnoteConfig.gap)).withRoot false)).head?.any
        Frame.isEmpty) = true) :
    handleFootnotes (fuel + 1) env s (n :: rest) movable false =
      .ok (s, n :: rest, false) := by
  obtain ⟨sroot, sregions, sexpand, sinitial, slwp, sitems, stags, sfloats,
    shf, scfg, sfin⟩ := s
  unfold handleFootnotes
  simp only [hfLoop]
  cases shf with
  | true =>
    simp only [Bool.not_true, Bool.false_eq_true, if_false] at hempty
    simp [Regions.setSizeY, Regions.withRoot] at hempty
    simp [href, hempty, Regions.setSize, Regions.setSizeY, Regions.withRoot]
  | false =>
    simp only [Bool.not_false, if_true] at hempty
    simp [Regions.setSizeY, Regions.withRoot, layoutFootnoteSeparator] at hempty
    simp [href, hempty, Regions.setSize, Regions.setSizeY, Regions.withRoot,
      layoutFootnoteSeparator, List.take_left]

/-- An environment whose footnote entries lay out to one empty frame. -/
def envEmptyEntry : Env :=
  { layoutEntry := fun _ _ => [Frame.soft Size.zero],
    separator := fun _ _ => Frame.soft Size.zero }

/-- Witness for C2 at concrete inputs. -/
theorem c2_footnote_rollback_witness :
    handleFootnotes 1 envEmptyEntry stateA [⟨some 5, true, false⟩] false false =
      .ok (stateA, [⟨some 5, true, false⟩], false) := by
  exact c2_footnote_rollback 0 envEmptyEntry stateA ⟨some 5, true, false⟩ [] false
    (by decide) (by with_unfolding_all rfl)

/-
C1. Vertical auto-alignment of floats emitted immediately.
-/

/-- Rewriting lemma: Abs addition on finite values. -/
theorem Abs.add_fin (a b : ℚ) : Abs.fin a + Abs.fin b = Abs.fin (a + b) := rfl

/-- Rewriting lemma: Abs subtraction on finite values. -/
theorem Abs.sub_fin (a b : ℚ) : Abs.fin a - Abs.fin b = Abs.fin (a - b) := rfl

/-- Rewriting lemma: Abs division on finite values. -/
theorem Abs.div_fin (a b : ℚ) : Abs.fin a / Abs.fin b = Abs.fin (a / b) := rfl

/-- Rewriting lemma: the Abs order on finite values. -/
theorem Abs.ble_fin (a b : ℚ) : Abs.ble (Abs.fin a) (Abs.fin b) = decide (a ≤ b) := rfl

/-- Inversion of a successful bind in the Except monad. -/
theorem bind_eq_ok {ε α β : Type} {t : Except ε α} {k : α → Except ε β} {b : β}
    (h : (t >>= k) = .ok b) : ∃ a, t = .ok a ∧ k a = .ok b := by
  cases t with
  | error e => rw [bindError] at h; cases h
  | ok a => rw [bindOk] at h; exact ⟨a, rfl, h⟩

/-- The vertical alignment recorded in a placed item, if the item is a
placed one. -/
def FlowItem.placedYAlign : FlowItem → Option (Smart (Option FixedAlignment))
  | .placed _ _ ya _ _ _ => some ya
  | _ => none

/-- C1 amended: a floating placed item with auto vertical alignment that
is emitted immediately (no queued floats, and it fits or the region is
the last) is resolved to Start exactly when the float's midpoint lies
strictly above the region midpoint, and to End otherwise: the float
docks to the closer edge. The resolved alignment is recorded in the
item pushed last. -/
theorem c1_float_align (fuel : Nat) (env : Env) (s : FlowState) (f : Frame)
    (xa : FixedAlignment) (delta : Axes Rel) (clearance : Abs)
    (hpf : s.pendingFloats = [])
    (hfit : (!Abs.fits s.regions.size.y (f.height + clearance)
      && !s.regions.inLast) = false) :
    ∀ s', handleItem fuel env s (FlowItem.placed f xa Smart.auto delta true clearance) =
        .ok s' →
      (s'.items.getLast?.bind FlowItem.placedYAlign) =
        some (Smart.custom (some (if Abs.ble
          ((s.regions.size.y - (f.height + clearance) / Abs.fin 2) / s.regions.full)
          (Abs.fin (1/2)) then FixedAlignment.ending else FixedAlignment.start)))
      ∧ (∀ sy fullv h c : ℚ, s.regions.size.y = Abs.fin sy →
          s.regions.full = Abs.fin fullv → f.height = Abs.fin h →
          clearance = Abs.fin c → 0 < fullv →
          ((if Abs.ble
              ((s.regions.size.y - (f.height + clearance) / Abs.fin 2) / s.regions.full)
              (Abs.fin (1/2)) then FixedAlignment.ending else FixedAlignment.start)
            = FixedAlignment.start ↔ fullv - sy + (h + c) / 2 < fullv / 2)) := by
  intro s' hrun
  have harith : ∀ sy fullv h c : ℚ, s.regions.size.y = Abs.fin sy →
      s.regions.full = Abs.fin fullv → f.height = Abs.fin h →
      clearance = Abs.fin c → 0 < fullv →
      ((if Abs.ble
          ((s.regions.size.y - (f.height + clearance) / Abs.fin 2) / s.regions.full)
          (Abs.fin (1/2)) then FixedAlignment.ending else FixedAlignment.start)
        = FixedAlignment.start ↔ fullv - sy + (h + c) / 2 < fullv / 2) := by
    intro sy fullv h c hsy hfull hh hc hpos
    rw [hsy, hfull, hh, hc]
    rw [Abs.add_fin, Abs.div_fin, Abs.sub_fin, Abs.div_fin, Abs.ble_fin]
    by_cases hle : ((sy - (h + c) / 2) / fullv ≤ (1/2 : ℚ))
    · rw [if_pos (by simpa using hle)]
      rw [div_le_iff₀ hpos] at hle
      constructor
      · intro hfalse
        cases hfalse
      · intro habove
        exfalso
        linarith
    · rw [if_neg (by simpa using hle)]
      rw [not_le, lt_div_iff₀ hpos] at hle
      constructor
      · intro _
        linarith
      · intro _
        rfl
  simp only [handleItem] at hrun
  rw [hpf] at hrun
  simp only [List.isEmpty_nil, Bool.not_true, Bool.false_or, hfit, Bool.false_eq_true,
    if_false, Smart.isAuto, if_true] at hrun
  cases hr : s.root with
  | false =>
    rw [hr] at hrun
    simp only [Bool.false_eq_true, if_false] at hrun
    injection hrun with hrun
    rw [← hrun]
    refine ⟨?_, harith⟩
    simp [List.getLast?_concat, FlowItem.placedYAlign]
  | true =>
    rw [hr] at hrun
    simp only [if_true] at hrun
    cases fuel with
    | zero =>
      exact absurd hrun (by simp)
    | succ fu =>
      obtain ⟨s3, ht, hk⟩ := bind_eq_ok hrun
      injection hk with hk
      rw [← hk]
      refine ⟨?_, harith⟩
      simp [List.getLast?_concat, FlowItem.placedYAlign]

/-- A 20 by 10 floating frame with no children. -/
def frameC1 : Frame := Frame.soft ⟨Abs.fin 20, Abs.fin 10⟩

/-- A zero placement delta. -/
def deltaZero : Axes Rel := ⟨⟨0, Abs.zero⟩, ⟨0, Abs.zero⟩⟩

/-- C1 counterexample: the claim as stated, that the alignment resolves
to End when the float's midpoint lies above the region midpoint, fails:
at the top of the region the code resolves the alignment to Start. -/
theorem c1_counterexample :
    ¬ (∀ (fuel : Nat) (env : Env) (s s' : FlowState) (f : Frame)
        (xa : FixedAlignment) (delta : Axes Rel) (clearance : Abs)
        (sy fullv h c : ℚ),
        s.pendingFloats = [] →
        (!Abs.fits s.regions.size.y (f.height + clearance) && !s.regions.inLast) = false →
        handleItem fuel env s (FlowItem.placed f xa Smart.auto delta true clearance) =
          .ok s' →
        s.regions.size.y = Abs.fin sy → s.regions.full = Abs.fin fullv →
        f.height = Abs.fin h → clearance = Abs.fin c → 0 < fullv →
        fullv - sy + (h + c) / 2 < fullv / 2 →
        (s'.items.getLast?.bind FlowItem.placedYAlign) =
          some (Smart.custom (some FixedAlignment.ending))) := by
  intro hcl
  have hobs : (handleItem 1 envNull stateA (FlowItem.placed frameC1 FixedAlignment.start
      Smart.auto deltaZero true Abs.zero)).toOption.map
        (fun t => t.items.getLast?.bind FlowItem.placedYAlign) =
      some (some (Smart.custom (some FixedAlignment.start))) := by
    with_unfolding_all rfl
  cases hrun : handleItem 1 envNull stateA (FlowItem.placed frameC1 FixedAlignment.start
      Smart.auto deltaZero true Abs.zero) with
  | error e =>
    rw [hrun] at hobs
    simp [Except.toOption] at hobs
  | ok s1 =>
    rw [hrun] at hobs
    simp only [Except.toOption, Option.map_some'] at hobs
    have hend := hcl 1 envNull stateA s1 frameC1 FixedAlignment.start deltaZero
      Abs.zero 100 100 10 0 rfl (by with_unfolding_all rfl) hrun rfl rfl rfl rfl
      (by norm_num) (by norm_num)
    rw [hend] at hobs
    simp at hobs

/-- A state whose region is mostly consumed, so a float's midpoint falls
below the middle. -/
def stateC1w : FlowState :=
  { stateA with regions := { regionsA with size := ⟨Abs.fin 100, Abs.fin 30⟩ } }

/-- Witness for C1 at concrete inputs: in the lower half the alignment
resolves to End. -/
theorem c1_float_align_witness :
    (handleItem 1 envNull stateC1w (FlowItem.placed frameC1 FixedAlignment.start
      Smart.auto deltaZero true Abs.zero)).toOption.map
        (fun t => t.items.getLast?.bind FlowItem.placedYAlign) =
      some (some (Smart.custom (some FixedAlignment.ending))) := by
  cases hrun : handleItem 1 envNull stateC1w (FlowItem.placed frameC1 FixedAlignment.start
      Smart.auto deltaZero true Abs.zero) with
  | error e =>
    exfalso
    have hobs : (handleItem 1 envNull stateC1w (FlowItem.placed frameC1 FixedAlignment.start
        Smart.auto deltaZero true Abs.zero)).toOption.map
          (fun t => t.items.getLast?.bind FlowItem.placedYAlign) =
        some (some (Smart.custom (some FixedAlignment.ending))) := by
      with_unfolding_all rfl
    rw [hrun] at hobs
    simp [Except.toOption] at hobs
  | ok s1 =>
    have h := (c1_float_align 1 envNull stateC1w frameC1 FixedAlignment.start deltaZero
      Abs.zero rfl (by with_unfolding_all rfl) s1 hrun).1
    simp only [Except.toOption, Option.map_some']
    rw [h]
    with_unfolding_all rfl

/-
C8. Column splitting.
-/

/-- Length of repeating every element n times. -/
theorem flatMap_replicate_length (l : List α) (n : Nat) :
    (l.flatMap fun h => List.replicate n h).length = n * l.length := by
  induction l with
  | nil => simp
  | cons a t ih =>
    simp [List.flatMap_cons, ih, Nat.mul_succ]
    omega

/-- Indexing into a list where every element is repeated n times divides
the index by n. -/
theorem flatMap_replicate_get (l : List α) (n : Nat) (hn : 0 < n) :
    ∀ i, (l.flatMap fun h => List.replicate n h).get? i = l.get? (i / n) := by
  induction l with
  | nil => simp
  | cons a t ih =>
    intro i
    rw [List.flatMap_cons]
    by_cases hi : i < n
    · rw [List.get?_append (by simpa using hi)]
      rw [Nat.div_eq_of_lt hi]
      simp [List.get?_eq_getElem?, List.getElem?_replicate, hi]
    · have hge := Nat.le_of_not_lt hi
      rw [List.get?_append_right (by simpa using hge)]
      simp only [List.length_replicate]
      rw [ih (i - n)]
      rw [Nat.div_eq_sub_div hn hge]
      rfl

/-- Every size yielded by a region stream keeps the stream's width. -/
theorem iterNth_width (r : Regions) : ∀ n sz, r.iterNth n = some sz → sz.x = r.size.x := by
  intro n sz h
  unfold Regions.iterNth at h
  by_cases hn : n = 0
  · rw [if_pos hn] at h
    injection h with h
    rw [← h]
  · rw [if_neg hn] at h
    cases hbg : r.backlog.get? (n - 1) with
    | some hh =>
      rw [hbg] at h
      injection h with h
      rw [← h]
    | none =>
      rw [hbg] at h
      cases hl : r.last with
      | none => rw [hl] at h; cases h
      | some L =>
        rw [hl] at h
        injection h with h
        rw [← h]

/-- C8: with an infinite incoming width, column layout is the plain
fragment layout unchanged; otherwise every pod region has width
(W - gutter(N-1))/N where W is the incoming width, and the pod's
vertical backlog repeats each original height N times with the first
entry skipped. -/
theorem c8_columns (oracle : Regions → List Frame) (regions : Regions) (count : Nat)
    (gutter : Rel) (dir : Dir) (hc : 0 < count) :
    (regions.size.x.isFinite = false →
      layoutFragmentWithColumns oracle regions count gutter dir = oracle regions)
    ∧ ((columnPod regions count gutter).size.x =
        (regions.size.x - Abs.scale ((count : ℚ) - 1) (gutter.relativeTo regions.size.x))
          / Abs.fin (count : ℚ)
      ∧ (∀ n sz, (columnPod regions count gutter).iterNth n = some sz →
          sz.x = (regions.size.x
            - Abs.scale ((count : ℚ) - 1) (gutter.relativeTo regions.size.x))
            / Abs.fin (count : ℚ)))
    ∧ ((columnPod regions count gutter).backlog.length =
        count * (regions.backlog.length + 1) - 1
      ∧ ∀ i, (columnPod regions count gutter).backlog.get? i =
          (regions.size.y :: regions.backlog).get? ((i + 1) / count)) := by
  have hwidth : (columnPod regions count gutter).size.x =
      (regions.size.x - Abs.scale ((count : ℚ) - 1) (gutter.relativeTo regions.size.x))
        / Abs.fin (count : ℚ) := by
    simp [columnPod, Regions.base]
  refine ⟨?_, ⟨hwidth, ?_⟩, ?_, ?_⟩
  · intro h
    simp [layoutFragmentWithColumns, h]
  · intro n sz h
    rw [iterNth_width _ n sz h, hwidth]
  · show (((regions.size.y :: regions.backlog).flatMap
        fun h => List.replicate count h).drop 1).length =
      count * (regions.backlog.length + 1) - 1
    rw [List.length_drop, flatMap_replicate_length]
    simp [Nat.mul_succ, Nat.mul_comm]
  · intro i
    show ((((regions.size.y :: regions.backlog).flatMap
        fun h => List.replicate count h).drop 1).get? i) =
      (regions.size.y :: regions.backlog).get? ((i + 1) / count)
    rw [List.get?_drop, flatMap_replicate_get _ count hc]
    rw [Nat.add_comm 1 i]

/-- A finite two-height region stream for the column witness. -/
def regionsC8 : Regions :=
  { size := ⟨Abs.fin 100, Abs.fin 50⟩, full := Abs.fin 50, backlog := [Abs.fin 60],
    last := none, expand := ⟨true, false⟩, root := false }

/-- Witness for C8 at concrete inputs: two columns with a 4 point
gutter over a 100 point wide region give 48 point wide pods, and the
backlog [50, 60] becomes [50, 60, 60]. -/
theorem c8_columns_witness :
    (columnPod regionsC8 2 ⟨0, Abs.fin 4⟩).size.x = Abs.fin 48
    ∧ (columnPod regionsC8 2 ⟨0, Abs.fin 4⟩).backlog.length = 3
    ∧ (columnPod regionsC8 2 ⟨0, Abs.fin 4⟩).backlog.get? 0 = some (Abs.fin 50)
    ∧ (columnPod regionsC8 2 ⟨0, Abs.fin 4⟩).backlog.get? 2 = some (Abs.fin 60) := by
  have h := c8_columns (fun _ => []) regionsC8 2 ⟨0, Abs.fin 4⟩ Dir.ltr (by decide)
  refine ⟨?_, ?_, ?_, ?_⟩
  · rw [h.2.1.1]
    with_unfolding_all rfl
  · rw [h.2.2.1]
    rfl
  · rw [h.2.2.2 0]
    rfl
  · rw [h.2.2.2 2]
    rfl

/-
C3. The per-line budget of handle_par and the early-commit rule.
-/

/-- The spec-side formula for the required budget, phrased over the list
of line heights: h[0]+leading+h[1]+leading+h[len-1] under prevent_all at
the first line, h[0]+leading+h[1] under orphan prevention at the first
line, h[len-2]+leading+h[len-1] under widow prevention at the
second-to-last line (from i = 2 on), else h[i]. -/
def neededHeightSpec (h : List Abs) (leading : Abs)
    (preventAll preventOrphans preventWidows : Bool) (i len : Nat) : Abs :=
  if preventAll && i == 0 then
    h.getD 0 Abs.zero + leading + h.getD 1 Abs.zero + leading + h.getD (len - 1) Abs.zero
  else if preventOrphans && i == 0 then
    h.getD 0 Abs.zero + leading + h.getD 1 Abs.zero
  else if preventWidows && decide (2 ≤ i) && i + 2 == len then
    h.getD (len - 2) Abs.zero + leading + h.getD (len - 1) Abs.zero
  else
    h.getD i Abs.zero

/-- The cached edge heights agree with indexing into the height list. -/
theorem heightAt_map (lines : List Frame) (k : Nat) :
    heightAt lines k = (lines.map Frame.height).getD k Abs.zero := by
  simp [heightAt, List.getD, List.get?_map]

/-- Order on lengths is transitive. -/
theorem Abs.ble_trans {a b c : Abs} (h1 : Abs.ble a b = true) (h2 : Abs.ble b c = true) :
    Abs.ble a c = true := by
  cases a <;> cases b <;> cases c <;> simp_all [Abs.ble]
  exact le_trans h1 h2

/-- Anything fits an infinite budget, so an unfit budget is finite. -/
theorem finite_of_not_fits {y needed : Abs} (h : Abs.fits y needed = false) :
    y.isFinite = true := by
  cases y with
  | fin v => rfl
  | inf => cases needed <;> simp_all [Abs.fits, Abs.ble]

/-- Members of the trimmed item list are members of the original. -/
theorem mem_trimTrailingWeak {it : FlowItem} {l : List FlowItem}
    (h : it ∈ trimTrailingWeak l) : it ∈ l := by
  unfold trimTrailingWeak at h
  rw [List.mem_reverse] at h
  rw [← List.mem_reverse]
  exact (List.dropWhile_sublist _).mem h

/-- Whether a flow item is not a float with an unresolved vertical
alignment (the placement loop's unreachable arm). -/
def FlowItem.wellPlaced : FlowItem → Bool
  | .placed _ _ (Smart.custom (some FixedAlignment.start)) _ true _ => true
  | .placed _ _ (Smart.custom (some FixedAlignment.ending)) _ true _ => true
  | .placed _ _ _ _ true _ => false
  | _ => true

/-- A well-placed item always places successfully. -/
theorem placeStep_ok (gap : Abs) (initial used : Size) (fr : ℚ) (fh fb : Abs)
    (size : Size) (ctx : PlaceCtx) (item : FlowItem)
    (h : item.wellPlaced = true) :
    ∃ ctx2, placeStep gap initial used fr fh fb size ctx item = .ok ctx2 := by
  cases item with
  | absolute v weak => exact ⟨_, rfl⟩
  | fractional v => exact ⟨_, rfl⟩
  | frame f align sticky movable => exact ⟨_, rfl⟩
  | footnote f => exact ⟨_, rfl⟩
  | placed f xa ya delta float clearance =>
    cases float with
    | false => cases ya with
      | auto => exact ⟨_, rfl⟩
      | custom v => cases v with
        | none => exact ⟨_, rfl⟩
        | some al => exact ⟨_, rfl⟩
    | true =>
      cases ya with
      | auto => simp [FlowItem.wellPlaced] at h
      | custom v =>
        cases v with
        | none => simp [FlowItem.wellPlaced] at h
        | some al =>
          cases al with
          | start => exact ⟨_, rfl⟩
          | center => simp [FlowItem.wellPlaced] at h
          | ending => exact ⟨_, rfl⟩

/-- The placement loop succeeds on well-placed items. -/
theorem placeLoop_ok (gap : Abs) (initial used : Size) (fr : ℚ) (fh fb : Abs)
    (size : Size) :
    ∀ (items : List FlowItem) (ctx : PlaceCtx),
    (∀ it ∈ items, it.wellPlaced = true) →
    ∃ ctx2, placeLoop gap initial used fr fh fb size ctx items = .ok ctx2 := by
  intro items
  induction items with
  | nil => exact fun ctx _ => ⟨ctx, rfl⟩
  | cons item rest ih =>
    intro ctx h
    obtain ⟨ctx1, h1⟩ := placeStep_ok gap initial used fr fh fb size ctx item
      (h item (List.mem_cons_self _ _))
    obtain ⟨ctx2, h2⟩ := ih ctx1 fun it hit => h it (List.mem_cons_of_mem _ hit)
    exact ⟨ctx2, by rw [placeLoop, h1]; exact h2⟩

/-- The commit placement stage succeeds on well-placed items. -/
theorem commitPlace_ok (s : FlowState)
    (h : ∀ it ∈ s.items, it.wellPlaced = true) :
    ∃ ctx, commitPlace s = .ok ctx := by
  unfold commitPlace
  exact placeLoop_ok _ _ _ _ _ _ _ _ _
    fun it hit => h it (mem_trimTrailingWeak hit)

/-- When the stream is not in its last region, the size after advancing
is the second size yielded by iteration. -/
theorem regions_next_iterNth (r : Regions) (sz : Size)
    (h1 : r.inLast = false) (h2 : r.iterNth 1 = some sz) : r.next.size = sz := by
  unfold Regions.iterNth at h2
  rw [if_neg (by omega)] at h2
  cases hbg : r.backlog with
  | cons hh t =>
    rw [hbg] at h2
    simp only [List.get?] at h2
    injection h2 with h2
    rw [← h2]
    simp [Regions.next, hbg]
  | nil =>
    rw [hbg] at h2
    simp only [List.get?] at h2
    cases hl : r.last with
    | none => rw [hl] at h2; cases h2
    | some L =>
      exfalso
      have : r.inLast = true := by simp [Regions.inLast, hbg, hl]
      rw [h1] at this
      cases this

/-- Committing with force false, empty pending tags and floats, sound
items and no expansion into infinity pushes exactly one frame, clears
nothing else and advances the regions. -/
theorem finishRegion_commit (fuel : Nat) (env : Env) (s : FlowState)
    (htags : s.pendingTags = []) (hpf : s.pendingFloats = [])
    (hwf : ∀ it ∈ s.items, it.wellPlaced = true)
    (hcx : (!s.regions.size.x.isFinite && s.expand.x) = false)
    (hcy : (!s.regions.size.y.isFinite && s.expand.y) = false) :
    ∃ s2, finishRegion fuel env s false = .ok s2
      ∧ s2.finished.length = s.finished.length + 1
      ∧ s2.regions = s.regions.next
      ∧ s2.pendingTags = [] ∧ s2.pendingFloats = []
      ∧ s2.root = s.root ∧ s2.footnoteConfig = s.footnoteConfig := by
  by_cases hfast : (!false && !s.items.isEmpty && s.items.all FlowItem.isOutOfFlow) = true
  · refine ⟨{ s with
        finished := s.finished ++ [Frame.soft s.initial],
        regions := s.regions.next,
        initial := s.regions.next.size },
      ?_, ?_, rfl, htags, hpf, rfl, rfl⟩
    · rw [Bool.not_false, Bool.true_and] at hfast
      rw [Bool.and_eq_true] at hfast
      simp [finishRegion, finishRegionCore, hfast.1, hfast.2]
    · simp
  · obtain ⟨ctx, hplace⟩ := commitPlace_ok s hwf
    have hcore : finishRegionCore s false = .ok (commitPack s false ctx) := by
      unfold finishRegionCore
      rw [if_neg hfast, if_neg (by simp [hcx]), if_neg (by simp [hcy]), hplace]
    refine ⟨(commitPack s false ctx).1, ?_, ?_, ?_, ?_, ?_, ?_, ?_⟩
    · simp only [finishRegion]
      rw [hcore]
      have h2 : (commitPack s false ctx).2 = [] := by
        simp [commitPack, hpf]
      simp [h2]
    · simp [commitPack]
    · simp [commitPack]
    · simp [commitPack, htags]
    · simp [commitPack]
    · simp [commitPack]
    · simp [commitPack]

/-- C3 amended: the required budget before emitting line i equals the
spec's formula over the line heights; and whenever the region stream is
not in its last region and the budget does not fit the current region
but fits the next, the region is committed (exactly one frame is
pushed) before the line frame is emitted as the last item. -/
theorem c3_par_needed_commit :
    (∀ (lines : List Frame) (leading : Abs) (pa po pw : Bool) (i : Nat) (fr : Frame),
      lines.get? i = some fr →
      neededHeight pa po pw (heightAt lines 0) (heightAt lines 1)
        (heightAt lines (lines.length - 2)) (heightAt lines (lines.length - 1))
        leading fr.height i lines.length =
      neededHeightSpec (lines.map Frame.height) leading pa po pw i lines.length)
    ∧ (∀ (fuel : Nat) (env : Env) (s : FlowState) (needed : Abs) (f : Frame)
        (align : Axes FixedAlignment),
      s.pendingTags = [] → s.pendingFloats = [] →
      (∀ it ∈ s.items, it.wellPlaced = true) →
      collectFootnotes [] f = [] →
      (!s.regions.size.x.isFinite && s.expand.x) = false →
      s.regions.inLast = false →
      Abs.fits s.regions.size.y needed = false →
      ((s.regions.iterNth 1).any fun sz => Abs.fits sz.y needed) = true →
      Abs.ble f.height needed = true →
      ∃ s3, handleParLineCore (fuel + 2) env s needed f align = .ok s3
        ∧ s3.finished.length = s.finished.length + 1
        ∧ s3.items.getLast? = some (FlowItem.frame f align false true)) := by
  constructor
  · intro lines leading pa po pw i fr hline
    have hg : lines[i]? = some fr := by
      rw [← List.get?_eq_getElem?]
      exact hline
    unfold neededHeight neededHeightSpec
    rw [heightAt_map, heightAt_map, heightAt_map, heightAt_map]
    split_ifs <;> simp [List.getD, hg]
  · intro fuel env s needed f align htags hpf hwf hcf hcx hlast hfits hnext hble
    have hyfin := finite_of_not_fits hfits
    have hcy : (!s.regions.size.y.isFinite && s.expand.y) = false := by
      simp [hyfin]
    obtain ⟨sz, hsz, hszfits⟩ :
        ∃ sz, s.regions.iterNth 1 = some sz ∧ Abs.fits sz.y needed = true := by
      cases hi : s.regions.iterNth 1 with
      | none => rw [hi] at hnext; simp [Option.any] at hnext
      | some sz =>
        rw [hi] at hnext
        exact ⟨sz, rfl, by simpa [Option.any] using hnext⟩
    obtain ⟨s2, hfin, hlen, hreg, htags2, hpf2, hroot2, hcfg2⟩ :=
      finishRegion_commit (fuel + 2) env s htags hpf hwf hcx hcy
    have hcond : (!s.regions.inLast && !Abs.fits s.regions.size.y needed
        && ((s.regions.iterNth 1).any fun sz => Abs.fits sz.y needed)) = true := by
      simp [hlast, hfits, hnext]
    have hnextsize : s2.regions.size = sz := by
      rw [hreg]
      exact regions_next_iterNth _ _ hlast hsz
    have hfit2 : Abs.fits s2.regions.size.y f.height = true := by
      rw [hnextsize]
      exact Abs.ble_trans hble hszfits
    have hdrain : drainTag s2 f = (s2, f) := by
      simp [drainTag, htags2]
    unfold handleParLineCore
    rw [if_pos hcond, hfin, bindOk]
    simp only [hdrain]
    simp only [handleItem]
    have hfl : fitLoop (fuel + 1) env s2 f.height = .ok s2 := by
      simp [fitLoop, hfit2]
    rw [hfl, bindOk]
    cases hr : s2.root with
    | false =>
      rw [Bool.false_and]
      simp only [Bool.false_eq_true, if_false]
      refine ⟨_, rfl, by simpa using hlen, ?_⟩
      simp [List.getLast?_concat]
    | true =>
      rw [Bool.true_and, if_pos rfl]
      rw [hcf]
      simp only [hfLoop, List.get?, bindOk, List.length_nil]
      refine ⟨_, rfl, by simpa using hlen, ?_⟩
      simp [List.getLast?_concat]

/-- A state already in its repeating last region with 5 points left. -/
def sC3 : FlowState :=
  { stateA with regions := { regionsA with size := ⟨Abs.fin 100, Abs.fin 5⟩ } }

/-- A 20 by 10 line frame for the paragraph claims. -/
def frameC3 : Frame := Frame.soft ⟨Abs.fin 20, Abs.fin 10⟩

/-- A start-start alignment. -/
def alignSS : Axes FixedAlignment := ⟨FixedAlignment.start, FixedAlignment.start⟩

/-- C3 counterexample: as stated, the claim requires a commit whenever
the needed budget misses the current region but fits the next; in the
repeating last region (where the next yielded region would fit), the
code does not commit. -/
theorem c3_counterexample :
    ¬ (∀ (fuel : Nat) (env : Env) (s : FlowState) (needed : Abs) (f : Frame)
        (align : Axes FixedAlignment) (s3 : FlowState),
        Abs.fits s.regions.size.y needed = false →
        ((s.regions.iterNth 1).any fun sz => Abs.fits sz.y needed) = true →
        handleParLineCore fuel env s needed f align = .ok s3 →
        s3.finished.length = s.finished.length + 1) := by
  intro hcl
  have hobs : (handleParLineCore 2 envNull sC3 (Abs.fin 10) frameC3 alignSS).toOption.map
      (fun t => t.finished.length) = some 0 := by
    with_unfolding_all rfl
  cases hrun : handleParLineCore 2 envNull sC3 (Abs.fin 10) frameC3 alignSS with
  | error e =>
    rw [hrun] at hobs
    simp [Except.toOption] at hobs
  | ok s3 =>
    rw [hrun] at hobs
    simp only [Except.toOption, Option.map_some'] at hobs
    have hlen := hcl 2 envNull sC3 (Abs.fin 10) frameC3 alignSS s3
      (by with_unfolding_all rfl) (by with_unfolding_all rfl) hrun
    rw [hlen] at hobs
    simp [sC3, stateA] at hobs

/-- A state one region before the last, with 5 points left and a 100
point region next. -/
def sC3w : FlowState :=
  { stateA with
    regions :=
      { regionsA with
        size := ⟨Abs.fin 100, Abs.fin 5⟩
        backlog := [Abs.fin 100]
        last := none } }

/-- Witness for C3 at concrete inputs: the line does not fit the 5
points left but fits the next region, so one frame is committed and the
line is emitted into the new region. -/
theorem c3_par_needed_commit_witness :
    (handleParLineCore 2 envNull sC3w (Abs.fin 10) frameC3 alignSS).toOption.map
      (fun t => (t.finished.length, t.items.getLast?)) =
    some (1, some (FlowItem.frame frameC3 alignSS false true)) := by
  obtain ⟨s3, h1, h2, h3⟩ := c3_par_needed_commit.2 0 envNull sC3w (Abs.fin 10)
    frameC3 alignSS rfl rfl (by simp [sC3w, stateA]) rfl
    (by with_unfolding_all rfl) (by with_unfolding_all rfl)
    (by with_unfolding_all rfl) (by with_unfolding_all rfl)
    (by with_unfolding_all rfl)
  rw [h1]
  simp only [Except.toOption, Option.map_some']
  rw [h2, h3]
  rfl

/-
C6. Sticky migration.
-/

/-- Items the migration scan passes through: absolute spacing is
transparent, sticky frames extend the drained suffix. -/
def FlowItem.stickyTransparent : FlowItem → Bool
  | .absolute _ _ => true
  | .frame _ _ true _ => true
  | _ => false

/-- A frame item with the sticky flag set. -/
def FlowItem.isStickyFrame : FlowItem → Bool
  | .frame _ _ true _ => true
  | _ => false

/-- The migration scan either settles on the index of a sticky frame it
saw, independently of its starting value, or it returns its starting
value unchanged. -/
theorem migrationScan_cases (rest : List (Nat × FlowItem)) :
    (∃ r item, (∀ c, migrationScan c rest = r) ∧ (r, item) ∈ rest
      ∧ FlowItem.isStickyFrame item = true)
    ∨ (∀ c, migrationScan c rest = c) := by
  induction rest with
  | nil => exact Or.inr fun c => rfl
  | cons p rest ih =>
    obtain ⟨i, item⟩ := p
    cases item with
    | absolute v w =>
      cases ih with
      | inl h =>
        obtain ⟨r, it, h1, h2, h3⟩ := h
        exact Or.inl ⟨r, it, fun c => h1 c, List.mem_cons_of_mem _ h2, h3⟩
      | inr h => exact Or.inr fun c => h c
    | frame fr al st mv =>
      cases st with
      | true =>
        cases ih with
        | inl h =>
          obtain ⟨r, it, h1, h2, h3⟩ := h
          exact Or.inl ⟨r, it, fun c => h1 i, List.mem_cons_of_mem _ h2, h3⟩
        | inr h =>
          exact Or.inl ⟨i, FlowItem.frame fr al true mv, fun c => h i,
            List.mem_cons_self _ _, rfl⟩
      | false => exact Or.inr fun c => rfl
    | fractional f => exact Or.inr fun c => rfl
    | placed fr xa ya d fl cl => exact Or.inr fun c => rfl
    | footnote fr => exact Or.inr fun c => rfl

/-- An all-transparent drained tail of the extended list restricts to
one of the original list. -/
theorem allTransp_restrict {l : List FlowItem} {x : FlowItem} {k : Nat}
    (hk : k ≤ l.length)
    (hall : ∀ it ∈ (l ++ [x]).drop k, FlowItem.stickyTransparent it = true) :
    ∀ it ∈ l.drop k, FlowItem.stickyTransparent it = true := by
  intro it hm
  refine hall it ?_
  rw [List.drop_append_of_le_length hk]
  exact List.mem_append_left _ hm

/-- Characterization of the sticky index: it is at most the length, the
drained tail holds only transparent or sticky items, starts at a sticky
frame, and no earlier sticky frame has an all-transparent tail. -/
theorem migrationStickyIndex_spec (l : List FlowItem) :
    migrationStickyIndex l ≤ l.length
    ∧ (∀ it ∈ l.drop (migrationStickyIndex l), FlowItem.stickyTransparent it = true)
    ∧ (∀ hd, l.get? (migrationStickyIndex l) = some hd → FlowItem.isStickyFrame hd = true)
    ∧ (∀ k hd, k < migrationStickyIndex l → l.get? k = some hd →
        FlowItem.isStickyFrame hd = true →
        ¬(∀ it ∈ l.drop k, FlowItem.stickyTransparent it = true)) := by
  induction l using List.reverseRecOn with
  | nil => simp [migrationStickyIndex, migrationScan]
  | append_singleton l x ih =>
    obtain ⟨ih1, ih2, ih3, ih4⟩ := ih
    have henum : (l ++ [x]).enum = l.enum ++ [(l.length, x)] := by
      rw [List.enum_append]
      rfl
    have hrev : ((l ++ [x]).enum).reverse = (l.length, x) :: (l.enum).reverse := by
      rw [henum, List.reverse_append]
      rfl
    have hj : migrationStickyIndex (l ++ [x])
        = migrationScan (l.length + 1) ((l.length, x) :: (l.enum).reverse) := by
      simp [migrationStickyIndex, hrev]
    have hgetlast : (l ++ [x]).get? l.length = some x := by
      rw [List.get?_eq_getElem?]
      exact List.getElem?_concat_length l x
    have hstop : FlowItem.stickyTransparent x = false →
        migrationStickyIndex (l ++ [x]) = l.length + 1 →
        migrationStickyIndex (l ++ [x]) ≤ (l ++ [x]).length
        ∧ (∀ it ∈ (l ++ [x]).drop (migrationStickyIndex (l ++ [x])),
            FlowItem.stickyTransparent it = true)
        ∧ (∀ hd, (l ++ [x]).get? (migrationStickyIndex (l ++ [x])) = some hd →
            FlowItem.isStickyFrame hd = true)
        ∧ (∀ k hd, k < migrationStickyIndex (l ++ [x]) → (l ++ [x]).get? k = some hd →
            FlowItem.isStickyFrame hd = true →
            ¬(∀ it ∈ (l ++ [x]).drop k, FlowItem.stickyTransparent it = true)) := by
      intro hx hnew
      rw [hnew]
      refine ⟨by simp, by simp, ?_, ?_⟩
      · intro hd hget
        have hlt := (List.get?_eq_some.mp hget).1
        simp at hlt
      intro k hd hk hget hsticky hall
      have hk' : k ≤ l.length := by omega
      have hx' := hall x (by
        rw [List.drop_append_of_le_length hk']
        exact List.mem_append_right _ (List.mem_singleton_self x))
      rw [hx] at hx'
      exact Bool.false_ne_true hx'
    cases x with
    | absolute v w =>
      rcases migrationScan_cases (l.enum).reverse with hA | hB
      · obtain ⟨r, item, h1, h2, h3⟩ := hA
        have hnew : migrationStickyIndex (l ++ [FlowItem.absolute v w]) = r := by
          rw [hj]
          exact h1 (l.length + 1)
        have hold : migrationStickyIndex l = r := h1 l.length
        have hget : l.get? r = some item := by
          have h2' := List.mem_reverse.mp h2
          rw [List.mem_enum_iff_getElem?] at h2'
          rw [List.get?_eq_getElem?]
          exact h2'
        have hrlt : r < l.length := by
          rcases List.get?_eq_some.mp hget with ⟨h4, _⟩
          exact h4
        rw [hnew]
        refine ⟨by simp; omega, ?_, ?_, ?_⟩
        · intro it hm
          rw [List.drop_append_of_le_length (le_of_lt hrlt)] at hm
          rcases List.mem_append.mp hm with hm | hm
          · rw [hold] at ih2
            exact ih2 it hm
          · rw [List.mem_singleton.mp hm]
            rfl
        · intro hd hget'
          rw [List.get?_append hrlt] at hget'
          rw [hold] at ih3
          exact ih3 hd hget'
        · intro k hd hk hget' hsticky hall
          have hklt : k < l.length := lt_trans hk hrlt
          rw [List.get?_append hklt] at hget'
          rw [hold] at ih4
          exact ih4 k hd hk hget' hsticky (allTransp_restrict (le_of_lt hklt) hall)
      · have hnew : migrationStickyIndex (l ++ [FlowItem.absolute v w]) = l.length + 1 := by
          rw [hj]
          exact hB (l.length + 1)
        have hold : migrationStickyIndex l = l.length := hB l.length
        rw [hnew]
        refine ⟨by simp, by simp, ?_, ?_⟩
        · intro hd hget
          have hlt := (List.get?_eq_some.mp hget).1
          simp at hlt
        intro k hd hk hget hsticky hall
        rcases Nat.lt_or_ge k l.length with hklt | hkge
        · rw [List.get?_append hklt] at hget
          rw [hold] at ih4
          exact ih4 k hd (by omega) hget hsticky (allTransp_restrict (le_of_lt hklt) hall)
        · have hkeq : k = l.length := by omega
          rw [hkeq, hgetlast] at hget
          rw [← Option.some_inj.mp hget] at hsticky
          simp [FlowItem.isStickyFrame] at hsticky
    | frame fr al st mv =>
      cases st with
      | true =>
        have hnew : migrationStickyIndex (l ++ [FlowItem.frame fr al true mv])
            = migrationStickyIndex l := by
          rw [hj]
          rfl
        rw [hnew]
        refine ⟨by simp; omega, ?_, ?_, ?_⟩
        · intro it hm
          rw [List.drop_append_of_le_length ih1] at hm
          rcases List.mem_append.mp hm with hm | hm
          · exact ih2 it hm
          · rw [List.mem_singleton.mp hm]
            rfl
        · intro hd hget'
          rcases Nat.lt_or_ge (migrationStickyIndex l) l.length with hlt | hge
          · rw [List.get?_append hlt] at hget'
            exact ih3 hd hget'
          · have heq : migrationStickyIndex l = l.length := le_antisymm ih1 hge
            rw [heq, hgetlast] at hget'
            rw [← Option.some_inj.mp hget']
            rfl
        · intro k hd hk hget' hsticky hall
          have hklt : k < l.length := lt_of_lt_of_le hk ih1
          rw [List.get?_append hklt] at hget'
          exact ih4 k hd hk hget' hsticky (allTransp_restrict (le_of_lt hklt) hall)
      | false =>
        refine hstop rfl ?_
        rw [hj]
        rfl
    | fractional f =>
      refine hstop rfl ?_
      rw [hj]
      rfl
    | placed fr xa ya d fl cl =>
      refine hstop rfl ?_
      rw [hj]
      rfl
    | footnote fr =>
      refine hstop rfl ?_
      rw [hj]
      rfl

/-- C6: finish_region_with_migration drains exactly the anchored suffix
of sticky frames (absolute spacers transparent, anything else stops the
scan, and the suffix begins at a sticky frame), commits the region
without those items, replays them in order into the new region, and
returns whether the committed-into region is the last. -/
theorem c6_migration :
    (∀ (l : List FlowItem),
      migrationStickyIndex l ≤ l.length
      ∧ (∀ it ∈ l.drop (migrationStickyIndex l), FlowItem.stickyTransparent it = true)
      ∧ (∀ hd, l.get? (migrationStickyIndex l) = some hd →
          FlowItem.isStickyFrame hd = true)
      ∧ (∀ k hd, k < migrationStickyIndex l → l.get? k = some hd →
          FlowItem.isStickyFrame hd = true →
          ¬(∀ it ∈ l.drop k, FlowItem.stickyTransparent it = true)))
    ∧ (∀ (fuel : Nat) (env : Env) (s : FlowState),
      finishRegionWithMigration fuel env s =
        (finishRegion fuel env
            { s with items := s.items.take (migrationStickyIndex s.items) } false).bind
          fun s1 => (foldItems fuel env s1 (s.items.drop (migrationStickyIndex s.items))).bind
            fun s2 => Except.ok (s1.regions.inLast, s2)) := by
  constructor
  · exact migrationStickyIndex_spec
  · intro fuel env s
    rfl

/-- An item list where the scan stops at a non-sticky frame, then
drains a sticky frame followed by an absolute spacer. -/
def itemsC6 : List FlowItem :=
  [FlowItem.frame frameC3 alignSS false true,
   FlowItem.frame frameC3 alignSS true true,
   FlowItem.absolute (Abs.fin 2) false]

/-- Witness for C6 at a concrete list: the drained suffix begins at
index 1 with the sticky frame, and its index is within bounds. -/
theorem c6_migration_witness :
    FlowItem.isStickyFrame (FlowItem.frame frameC3 alignSS true true) = true
    ∧ migrationStickyIndex itemsC6 ≤ itemsC6.length := by
  constructor
  · exact (c6_migration.1 itemsC6).2.2.1 (FlowItem.frame frameC3 alignSS true true)
      (by with_unfolding_all rfl)
  · exact (c6_migration.1 itemsC6).1

/-
C10. Location distinctness of collect_footnotes.
-/

/-- Pairwise distinctness of footnote locations in a note list. -/
def distinctLocs (notes : List Elem) : Prop :=
  notes.Pairwise fun a b => a.location ≠ b.location

/-- Appending one element whose location is fresh preserves location
distinctness. -/
theorem distinctLocs_append_one (notes : List Elem) (e : Elem)
    (h1 : distinctLocs notes) (h2 : ∀ p ∈ notes, p.location ≠ e.location) :
    distinctLocs (notes ++ [e]) := by
  unfold distinctLocs at *
  rw [List.pairwise_append]
  refine ⟨h1, List.pairwise_singleton _ _, ?_⟩
  intro a ha b hb
  simp only [List.mem_singleton] at hb
  subst hb
  exact h2 a ha

/-- Composition of the collector invariant across two stages. -/
theorem collectSpec_compose (notes mid out : List Elem)
    (h1 : ∃ a, mid = notes ++ a ∧ ∀ e ∈ a, ∀ p ∈ notes, e.location ≠ p.location)
    (h1d : distinctLocs notes → distinctLocs mid)
    (h2 : ∃ a, out = mid ++ a ∧ ∀ e ∈ a, ∀ p ∈ mid, e.location ≠ p.location)
    (h2d : distinctLocs mid → distinctLocs out) :
    (∃ a, out = notes ++ a ∧ ∀ e ∈ a, ∀ p ∈ notes, e.location ≠ p.location)
    ∧ (distinctLocs notes → distinctLocs out) := by
  obtain ⟨a1, e1, p1⟩ := h1
  obtain ⟨a2, e2, p2⟩ := h2
  refine ⟨⟨a1 ++ a2, by rw [e2, e1, List.append_assoc], ?_⟩, fun hd => h2d (h1d hd)⟩
  intro e he p hp
  rcases List.mem_append.mp he with h | h
  · exact p1 e h p hp
  · exact p2 e h p (by rw [e1]; exact List.mem_append_left _ hp)

mutual
/-- The collector invariant for a whole frame: the output extends the
input with elements whose locations are absent from the input, and
location distinctness is preserved. -/
theorem collectFootnotes_spec : ∀ (notes : List Elem) (frame : Frame),
    (∃ a, collectFootnotes notes frame = notes ++ a
      ∧ ∀ e ∈ a, ∀ p ∈ notes, e.location ≠ p.location)
    ∧ (distinctLocs notes → distinctLocs (collectFootnotes notes frame))
  | notes, .mk sz k items => by
    have h := collectItems_spec notes items
    rw [collectFootnotes]
    exact h

/-- The collector invariant for a list of positioned frame items. -/
theorem collectItems_spec : ∀ (notes : List Elem) (items : List (Point × FrameItem)),
    (∃ a, collectItems notes items = notes ++ a
      ∧ ∀ e ∈ a, ∀ p ∈ notes, e.location ≠ p.location)
    ∧ (distinctLocs notes → distinctLocs (collectItems notes items))
  | notes, [] => by
    rw [collectItems]
    exact ⟨⟨[], by simp, by simp⟩, fun h => h⟩
  | notes, (pt, item) :: rest => by
    cases item with
    | group f =>
      have h1 := collectFootnotes_spec notes f
      have h2 := collectItems_spec (collectFootnotes notes f) rest
      rw [collectItems]
      exact collectSpec_compose notes (collectFootnotes notes f) _ h1.1 h1.2 h2.1 h2.2
    | link =>
      have h2 := collectItems_spec notes rest
      simp only [collectItems]
      exact h2
    | other =>
      have h2 := collectItems_spec notes rest
      simp only [collectItems]
      exact h2
    | tag t =>
      by_cases hany : (notes.any fun note => note.location == t.elem.location) = true
      · have h2 := collectItems_spec notes rest
        rw [collectItems, if_pos hany]
        exact h2
      · have hfresh : ∀ p ∈ notes, p.location ≠ t.elem.location := by
          intro p hp
          rw [Bool.not_eq_true, List.any_eq_false] at hany
          simpa using hany p hp
        by_cases hfn : t.elem.isFootnote = true
        · have h2 := collectItems_spec (notes ++ [t.elem]) rest
          rw [collectItems, if_neg hany, if_pos hfn]
          refine collectSpec_compose notes (notes ++ [t.elem]) _ ?_ ?_ h2.1 h2.2
          · exact ⟨[t.elem], rfl, by
              intro e he p hp
              simp only [List.mem_singleton] at he
              subst he
              exact fun hc => hfresh p hp hc.symm⟩
          · intro hd
            exact distinctLocs_append_one notes t.elem hd hfresh
        · have h2 := collectItems_spec notes rest
          rw [collectItems, if_neg hany, if_neg hfn]
          exact h2
end

/-- C10: collect_footnotes never appends an element whose location
matches one already present, so pairwise-distinct footnote locations
are preserved from input to output. -/
theorem c10_collect_distinct (notes : List Elem) (frame : Frame)
    (h : distinctLocs notes) :
    distinctLocs (collectFootnotes notes frame)
    ∧ ∃ added, collectFootnotes notes frame = notes ++ added
      ∧ ∀ e ∈ added, ∀ p ∈ notes, e.location ≠ p.location := by
  have hs := collectFootnotes_spec notes frame
  exact ⟨hs.2 h, hs.1⟩

/-- A concrete frame with one duplicate-location footnote tag, one
fresh footnote tag and a nested group. -/
def frameC10 : Frame :=
  Frame.mk ⟨Abs.fin 5, Abs.fin 5⟩ FrameKind.soft
    [(Point.zero, FrameItem.tag ⟨⟨some 1, true, false⟩⟩),
     (Point.zero, FrameItem.group (Frame.mk ⟨Abs.fin 1, Abs.fin 1⟩ FrameKind.soft
       [(Point.zero, FrameItem.tag ⟨⟨some 2, true, false⟩⟩)]))]

/-- Witness for C10 at concrete inputs: starting from a list already
holding location 1, only the fresh location 2 is appended. -/
theorem c10_collect_distinct_witness :
    distinctLocs (collectFootnotes [⟨some 1, true, false⟩] frameC10)
    ∧ collectFootnotes [⟨some 1, true, false⟩] frameC10 =
        [⟨some 1, true, false⟩, ⟨some 2, true, false⟩] := by
  refine ⟨(c10_collect_distinct [⟨some 1, true, false⟩] frameC10 ?_).1, ?_⟩
  · simp [distinctLocs]
  · rfl

/-- Witness for C9 at concrete inputs: an expanding flow over an
infinitely wide region errors at commit. -/
theorem c9_expand_errors_witness :
    finishRegion 0 envNull
      { stateA with
        expand := ⟨true, false⟩,
        regions := { regionsA with size := ⟨Abs.inf, Abs.fin 100⟩ } }
      true = .error .cannotExpandWidth := by
  exact (c9_expand_errors 0 envNull
    { stateA with
      expand := ⟨true, false⟩,
      regions := { regionsA with size := ⟨Abs.inf, Abs.fin 100⟩ } }
    true (Or.inl rfl)).1 rfl rfl

end Typst
